import Mathlib

/-!
Physical page allocator (`kalloc.c`) with the FIFO core map

A shallow embedding of `src/src/kalloc.c` and `src/src/coremap.h`.

* Machine integers (`uint`, pointers) are natural numbers, reduced modulo
  `2 ^ 32` wherever the C arithmetic can wrap.
* Physical memory is a byte map `Nat → Nat`; the intrusive free list is
  threaded through it exactly as in the C code (`r->next` is the 32-bit
  word stored in the first four bytes of a free page).
* `panic` never returns: an operation that reaches it yields
  `Result.panic s`, where `s` is the machine state at the moment of the
  abort.
* `acquire` / `release` / `initlock` belong to the spinlock module; in a
  sequential run they do not touch any allocator data and are left out.
* The globals `core_map`, `fifo_clock` and `kmem` live in kernel static
  data, below `end`; `kfree` only writes page memory at or above `end`,
  which is why page memory and the globals are separate components of the
  state.
* `KERNBASE`, `PHYSTOP` and `end` are parameters (`Layout`). The symbol
  `end` is the address of an object, so statements that need a page address
  to differ from the null pointer assume `0 < end`. The table
  `core_map[PHYSTOP >> PGSHIFT]` has one entry per frame of the managed
  range, so statements about its length assume that `PHYSTOP` is a whole
  number of pages, `PHYSTOP % PGSIZE = 0`.
-/

namespace Kalloc

/-! ## Constants of `mmu.h` / `memlayout.h` -/

/-- Page size in bytes (`PGSIZE` of `mmu.h`; "Allocates 4096-byte pages"). -/
def PGSIZE : Nat := 4096

/-- Log2 of the page size (`PGSHIFT` of `mmu.h`). -/
def PGSHIFT : Nat := 12

/-- Number of values of a `uint` or of a pointer. -/
def WORD : Nat := 2 ^ 32

/-- The link-time layout constants used by `kalloc.c` and declared elsewhere:
`KERNBASE` and `PHYSTOP` (`memlayout.h`) and the linker symbol `end`. -/
structure Layout where
  KERNBASE : Nat
  PHYSTOP : Nat
  end_ : Nat

/-- The macro `V2P(a) = ((uint) (a)) - KERNBASE`, in `uint` arithmetic. -/
def V2P (cfg : Layout) (a : Nat) : Nat :=
  (a % WORD + (WORD - cfg.KERNBASE % WORD)) % WORD

/-- The macro `PGROUNDUP(sz) = ((sz)+PGSIZE-1) & ~(PGSIZE-1)`, in `uint`
arithmetic. -/
def PGROUNDUP (sz : Nat) : Nat :=
  Nat.land ((sz + PGSIZE - 1) % WORD) (WORD - 1 - (PGSIZE - 1))

/-! ## State -/

/-- The struct `core_map_entry` of `coremap.h`. -/
structure core_map_entry where
  is_allocated : Int
  birth_time : Nat
deriving DecidableEq

/-- The anonymous struct `kmem` (without its spinlock). -/
structure Kmem where
  use_lock : Int
  freelist : Nat
deriving DecidableEq

/-- The allocator's globals together with byte-addressed memory. -/
structure State where
  core_map : Nat → core_map_entry
  fifo_clock : Nat
  kmem : Kmem
  mem : Nat → Nat

/-- The state at boot: zero-initialised globals, arbitrary page memory. -/
def State.initial (mem : Nat → Nat) : State :=
  { core_map := fun _ => ⟨0, 0⟩, fifo_clock := 0, kmem := ⟨0, 0⟩, mem := mem }

/-- Outcome of an operation that may abort or, for a loop run with a step
budget, exhaust the budget. -/
inductive Result (α : Type) where
  | ok (a : α)
  | panic (s : State)
  | nofuel

/-! ## Memory primitives -/

/-- The library routine `memset(dst, c, n)` on a flat byte memory. -/
def memset (mem : Nat → Nat) (dst c n : Nat) : Nat → Nat :=
  fun a => if dst ≤ a ∧ a < dst + n then c % 256 else mem a

/-- Store of a 32-bit little-endian word (`r->next = ...`). -/
def storeWord (mem : Nat → Nat) (a w : Nat) : Nat → Nat :=
  fun x => if a ≤ x ∧ x < a + 4 then (w / 256 ^ (x - a)) % 256 else mem x

/-- Load of a 32-bit little-endian word (`... = r->next`). -/
def loadWord (mem : Nat → Nat) (a : Nat) : Nat :=
  mem a % 256 + 256 * (mem (a + 1) % 256) + 65536 * (mem (a + 2) % 256)
    + 16777216 * (mem (a + 3) % 256)

/-- Update of one entry of `core_map`. -/
def setEntry (cm : Nat → core_map_entry) (idx : Nat) (e : core_map_entry) :
    Nat → core_map_entry :=
  fun i => if i = idx then e else cm i

/-! ## The operations of `kalloc.c` -/

/-- The guard of `kfree`:
`(uint)v % PGSIZE || v < end || V2P(v) >= PHYSTOP`. -/
def kfree_guard (cfg : Layout) (v : Nat) : Prop :=
  v % PGSIZE ≠ 0 ∨ v < cfg.end_ ∨ cfg.PHYSTOP ≤ V2P cfg v

instance (cfg : Layout) (v : Nat) : Decidable (kfree_guard cfg v) := by
  unfold kfree_guard; infer_instance

/-- The function `kfree(char *v)`. -/
def kfree (cfg : Layout) (v : Nat) (s : State) : Result State :=
  if kfree_guard cfg v then
    Result.panic s
  else
    let pa := V2P cfg v
    let idx := pa >>> PGSHIFT
    let cm1 := setEntry s.core_map idx { s.core_map idx with is_allocated := 0 }
    let cm2 := setEntry cm1 idx { cm1 idx with birth_time := 0 }
    let mem1 := memset s.mem v 1 PGSIZE
    let mem2 := storeWord mem1 v s.kmem.freelist
    Result.ok { s with core_map := cm2, mem := mem2,
                       kmem := { s.kmem with freelist := v } }

/-- The function `kalloc(void)`: the returned pointer and the new state. -/
def kalloc (cfg : Layout) (s : State) : Nat × State :=
  let r := s.kmem.freelist
  if r ≠ 0 then
    let next := loadWord s.mem r
    let pa := V2P cfg r
    let idx := pa >>> PGSHIFT
    let cm1 := setEntry s.core_map idx { s.core_map idx with is_allocated := 1 }
    let cm2 := setEntry cm1 idx { cm1 idx with birth_time := s.fifo_clock }
    (r, { s with core_map := cm2, fifo_clock := (s.fifo_clock + 1) % WORD,
                 kmem := { s.kmem with freelist := next } })
  else
    (r, s)

/-- The loop of `freerange`:
`for(; p + PGSIZE <= (char*)vend; p += PGSIZE) kfree(p);`
with a budget on the number of loop tests. -/
def freerange_loop (cfg : Layout) (vend : Nat) : Nat → Nat → State → Result State
  | 0, _, _ => Result.nofuel
  | fuel + 1, p, s =>
    if (p + PGSIZE) % WORD ≤ vend then
      match kfree cfg p s with
      | Result.ok s1 => freerange_loop cfg vend fuel ((p + PGSIZE) % WORD) s1
      | Result.panic s1 => Result.panic s1
      | Result.nofuel => Result.nofuel
    else
      Result.ok s

/-- Budget of `freerange`: there are `2 ^ 20` page-aligned 32-bit addresses,
so a loop that ever leaves does so within `2 ^ 20 + 1` tests. -/
def FUEL : Nat := 2 ^ 20 + 1

/-- The function `freerange(void *vstart, void *vend)`. -/
def freerange (cfg : Layout) (vstart vend : Nat) (s : State) : Result State :=
  freerange_loop cfg vend FUEL (PGROUNDUP vstart) s

/-- The function `kinit1(void *vstart, void *vend)`. -/
def kinit1 (cfg : Layout) (vstart vend : Nat) (s : State) : Result State :=
  freerange cfg vstart vend { s with kmem := { s.kmem with use_lock := 0 } }

/-- The function `kinit2(void *vstart, void *vend)`. -/
def kinit2 (cfg : Layout) (vstart vend : Nat) (s : State) : Result State :=
  match freerange cfg vstart vend s with
  | Result.ok s1 => Result.ok { s1 with kmem := { s1.kmem with use_lock := 1 } }
  | Result.panic s1 => Result.panic s1
  | Result.nofuel => Result.nofuel

/-! ## The free list as a sequence of pages -/

/-- The pointer `h` leads through exactly the pages `l`, in this order, to
the pointer `t`: every page of `l` is a non-null node whose first word links
to the next one. -/
def isFreeSeg (mem : Nat → Nat) : Nat → List Nat → Nat → Prop
  | h, [], t => h = t
  | h, p :: ps, t => h = p ∧ p ≠ 0 ∧ isFreeSeg mem (loadWord mem p) ps t

/-- The free list headed by `h` consists of exactly the pages `l`
(a null-terminated segment). -/
def isFreeList (mem : Nat → Nat) (h : Nat) (l : List Nat) : Prop :=
  isFreeSeg mem h l 0

/-- The first `n` pages met when following the links from `h`. -/
def walk (mem : Nat → Nat) : Nat → Nat → List Nat
  | 0, _ => []
  | n + 1, h => if h = 0 then [] else h :: walk mem n (loadWord mem h)

/-! ## Call sequences -/

/-- A call of the allocator interface. -/
inductive Call where
  | kinit1 (vstart vend : Nat)
  | kinit2 (vstart vend : Nat)
  | freerange (vstart vend : Nat)
  | kfree (v : Nat)
  | kalloc
deriving DecidableEq

/-- What a completed call did, as seen by its caller. -/
inductive Event where
  /-- A call of `kinit1`, `kinit2` or `freerange` on this range returned. -/
  | init (vstart vend : Nat)
  /-- A call `kfree(v)` returned. -/
  | free (v : Nat)
  /-- A call of `kalloc` returned the page `r`, stamped `birth`. -/
  | alloc (r birth : Nat)
  /-- A call of `kalloc` returned 0. -/
  | nomem
deriving DecidableEq

/-- Machine state together with the history of completed calls, most
recent first. -/
structure Sys where
  st : State
  log : List Event

/-- The system at boot. -/
def Sys.initial (mem : Nat → Nat) : Sys := ⟨State.initial mem, []⟩

/-- Lift an outcome on states to an outcome on systems, recording `e`. -/
def record (σ : Sys) (e : Event) : Result State → Result Sys
  | Result.ok s => Result.ok ⟨s, e :: σ.log⟩
  | Result.panic s => Result.panic s
  | Result.nofuel => Result.nofuel

/-- One call. -/
def step (cfg : Layout) (σ : Sys) : Call → Result Sys
  | Call.kinit1 a b => record σ (Event.init a b) (kinit1 cfg a b σ.st)
  | Call.kinit2 a b => record σ (Event.init a b) (kinit2 cfg a b σ.st)
  | Call.freerange a b => record σ (Event.init a b) (freerange cfg a b σ.st)
  | Call.kfree v => record σ (Event.free v) (kfree cfg v σ.st)
  | Call.kalloc =>
    let r := (kalloc cfg σ.st).1
    let s := (kalloc cfg σ.st).2
    if r ≠ 0 then
      Result.ok ⟨s, Event.alloc r (s.core_map (V2P cfg r >>> PGSHIFT)).birth_time :: σ.log⟩
    else
      Result.ok ⟨s, Event.nomem :: σ.log⟩

/-- A sequence of calls, stopped by the first call that does not return. -/
def run (cfg : Layout) : Sys → List Call → Result Sys
  | σ, [] => Result.ok σ
  | σ, c :: cs =>
    match step cfg σ c with
    | Result.ok σ1 => run cfg σ1 cs
    | Result.panic s => Result.panic s
    | Result.nofuel => Result.nofuel

/-- The pages handed out by `kalloc` and not released since. -/
def live : List Event → List Nat
  | [] => []
  | Event.alloc r _ :: es => r :: live es
  | Event.free v :: es => (live es).erase v
  | _ :: es => live es

/-- The addresses returned by successful `kalloc` calls, most recent first. -/
def returned : List Event → List Nat
  | [] => []
  | Event.alloc r _ :: es => r :: returned es
  | _ :: es => returned es

/-- The addresses passed to `kfree` by callers, most recent first. -/
def released : List Event → List Nat
  | [] => []
  | Event.free v :: es => v :: released es
  | _ :: es => released es

/-- The stamps given by successful `kalloc` calls, in call order. -/
def births : List Event → List Nat
  | [] => []
  | Event.alloc _ b :: es => births es ++ [b]
  | _ :: es => births es

/-- The ranges registered so far. -/
def regions : List Event → List (Nat × Nat)
  | [] => []
  | Event.init a b :: es => (a, b) :: regions es
  | _ :: es => regions es

/-- The `n` consecutive page addresses from `p` on. -/
def pagesFrom (p : Nat) : Nat → List Nat
  | 0 => []
  | n + 1 => p :: pagesFrom (p + PGSIZE) n

/-- The pages of a range: the page-aligned addresses `p` from
`PGROUNDUP(vstart)` on with `p + PGSIZE <= vend`. -/
def pagesOf (vstart vend : Nat) : List Nat :=
  pagesFrom (PGROUNDUP vstart) ((vend - PGROUNDUP vstart) / PGSIZE)

/-- A range for the initialisers: `vstart <= vend`, the end lies at least
two pages below the top of the 32-bit address space (so that neither
`PGROUNDUP(vstart)` nor any `p + PGSIZE` computed by `freerange` wraps), and
every page of the range passes the check of `kfree`. -/
def ValidRange (cfg : Layout) (vstart vend : Nat) : Prop :=
  vstart ≤ vend ∧ vend + 2 * PGSIZE ≤ WORD ∧ ∀ p ∈ pagesOf vstart vend, ¬ kfree_guard cfg p

/-- The calls `kfree(p)` for the pages `p` of a list, one after the other,
stopping at the first that panics. -/
def kfree_each (cfg : Layout) : List Nat → State → Result State
  | [], s => Result.ok s
  | p :: ps, s =>
    match kfree cfg p s with
    | Result.ok s1 => kfree_each cfg ps s1
    | Result.panic s1 => Result.panic s1
    | Result.nofuel => Result.nofuel

/-- The rules of the interface: a range handed to an initialiser is valid
and disjoint from every range registered before, and `kfree` is called only
on a page that is live. -/
def Allowed (cfg : Layout) (σ : Sys) : Call → Prop
  | Call.kinit1 a b => ValidRange cfg a b ∧ ∀ r ∈ regions σ.log, b ≤ r.1 ∨ r.2 ≤ a
  | Call.kinit2 a b => ValidRange cfg a b ∧ ∀ r ∈ regions σ.log, b ≤ r.1 ∨ r.2 ≤ a
  | Call.freerange a b => ValidRange cfg a b ∧ ∀ r ∈ regions σ.log, b ≤ r.1 ∨ r.2 ≤ a
  | Call.kfree v => v ∈ live σ.log
  | Call.kalloc => True

/-- Every call of the sequence obeys the rules at the time it is made. -/
def Respects (cfg : Layout) : Sys → List Call → Prop
  | _, [] => True
  | σ, c :: cs =>
    Allowed cfg σ c ∧
      match step cfg σ c with
      | Result.ok σ1 => Respects cfg σ1 cs
      | _ => True

/-- The invariant of the interface rules: the free list is a null-terminated
chain of pages; these pages and the live pages are pairwise distinct; each
of them passes the check of `kfree`, is a 32-bit address and lies inside a
registered range. -/
def Inv (cfg : Layout) (σ : Sys) : Prop :=
  ∃ l, isFreeList σ.st.mem σ.st.kmem.freelist l ∧ (l ++ live σ.log).Nodup ∧
    σ.st.kmem.freelist < WORD ∧
    ∀ p ∈ l ++ live σ.log, ¬ kfree_guard cfg p ∧ p < WORD ∧
      ∃ r ∈ regions σ.log, r.1 ≤ p ∧ p + PGSIZE ≤ r.2

instance Allowed.dec (cfg : Layout) (σ : Sys) : (c : Call) → Decidable (Allowed cfg σ c)
  | Call.kinit1 _ _ => by unfold Allowed ValidRange; infer_instance
  | Call.kinit2 _ _ => by unfold Allowed ValidRange; infer_instance
  | Call.freerange _ _ => by unfold Allowed ValidRange; infer_instance
  | Call.kfree _ => by unfold Allowed; infer_instance
  | Call.kalloc => by unfold Allowed; infer_instance

instance Respects.dec (cfg : Layout) : (σ : Sys) → (cs : List Call) →
    Decidable (Respects cfg σ cs)
  | _, [] => isTrue trivial
  | σ, c :: cs =>
    match h : step cfg σ c with
    | Result.ok σ1 =>
      have := Respects.dec cfg σ1 cs
      decidable_of_iff (Allowed cfg σ c ∧ Respects cfg σ1 cs) (by rw [Respects, h])
    | Result.panic _ => decidable_of_iff (Allowed cfg σ c) (by rw [Respects, h]; simp)
    | Result.nofuel => decidable_of_iff (Allowed cfg σ c) (by rw [Respects, h]; simp)

/-- The machine state in which an operation ended, when it ended. -/
def Result.final : Result State → Option State
  | Result.ok s => some s
  | Result.panic s => some s
  | Result.nofuel => none

/-- The call sequence of `n` rounds of `kalloc()` followed by `kfree(v)`. -/
def rounds (v : Nat) : Nat → List Call
  | 0 => []
  | n + 1 => Call.kalloc :: Call.kfree v :: rounds v n

/-- The stamps of the history continue the clock value `c`: the `i`-th
successful `kalloc` was stamped `(c + i) % 2^32`, and the clock stands at
`c` plus the number of successful `kalloc` calls, modulo `2^32`. -/
def Stamped (c : Nat) (σ : Sys) : Prop :=
  σ.st.fifo_clock = (c + (births σ.log).length) % WORD ∧
    ∀ i x, (births σ.log)[i]? = some x → x = (c + i) % WORD

/-- The bookkeeping of pages: as many successful `kalloc` calls as `kfree`
calls plus live pages, and the addresses ever returned are those ever
released or still live. -/
def Balanced (σ : Sys) : Prop :=
  (returned σ.log).length = (released σ.log).length + (live σ.log).length ∧
    ∀ x, x ∈ returned σ.log ↔ x ∈ released σ.log ∨ x ∈ live σ.log

/-- The state `s1` is the state `s` with the pages of the range registered:
the free list of `s1` leads through the pages of the range, last page first,
to the head of the free list of `s`, and the `core_map` entry of each of
these pages has `is_allocated = 0` and `birth_time = 0`. -/
def Registered (cfg : Layout) (vstart vend : Nat) (s s1 : State) : Prop :=
  isFreeSeg s1.mem s1.kmem.freelist (pagesOf vstart vend).reverse s.kmem.freelist ∧
    ∀ p ∈ pagesOf vstart vend,
      (s1.core_map (V2P cfg p >>> PGSHIFT)).is_allocated = 0 ∧
      (s1.core_map (V2P cfg p >>> PGSHIFT)).birth_time = 0

/-- The layout of stock xv6 with a kernel image ending at `0x80116000`. -/
def xv6 : Layout := ⟨0x80000000, 0xE000000, 0x80116000⟩

/-! ## Statement-level traces of `kfree` and `kalloc` -/

/-- One primitive effect of the allocator. -/
inductive Op where
  /-- The call `acquire(&kmem.lock)`. -/
  | acquire
  /-- The call `release(&kmem.lock)`. -/
  | release
  /-- The assignment `core_map[idx].is_allocated = val`. -/
  | set_is_allocated (idx : Nat) (val : Int)
  /-- The assignment `core_map[idx].birth_time = val`. -/
  | set_birth_time (idx : Nat) (val : Nat)
  /-- The call `memset(dst, c, n)`. -/
  | fill (dst c n : Nat)
  /-- The assignment `r->next = next`. -/
  | set_next (r next : Nat)
  /-- The assignment `kmem.freelist = p`. -/
  | set_freelist (p : Nat)
  /-- The increment `fifo_clock++`. -/
  | tick
deriving DecidableEq

/-- The effect of one primitive on the state. -/
def Op.apply : Op → State → State
  | Op.acquire, s => s
  | Op.release, s => s
  | Op.set_is_allocated idx val, s =>
    { s with core_map := setEntry s.core_map idx { s.core_map idx with is_allocated := val } }
  | Op.set_birth_time idx val, s =>
    { s with core_map := setEntry s.core_map idx { s.core_map idx with birth_time := val } }
  | Op.fill dst c n, s => { s with mem := memset s.mem dst c n }
  | Op.set_next r next, s => { s with mem := storeWord s.mem r next }
  | Op.set_freelist p, s => { s with kmem := { s.kmem with freelist := p } }
  | Op.tick, s => { s with fifo_clock := (s.fifo_clock + 1) % WORD }

/-- The effect of a sequence of primitives, in order. -/
def ops_run : List Op → State → State
  | [], s => s
  | op :: ops, s => ops_run ops (op.apply s)

/-- The primitives that `kfree(v)` executes once its check has passed, in
program order (lines 81 to 97 of `kalloc.c`). -/
def kfree_ops (cfg : Layout) (v : Nat) (s : State) : List Op :=
  [Op.set_is_allocated (V2P cfg v >>> PGSHIFT) 0,
   Op.set_birth_time (V2P cfg v >>> PGSHIFT) 0,
   Op.fill v 1 PGSIZE] ++
  (if s.kmem.use_lock ≠ 0 then [Op.acquire] else []) ++
  [Op.set_next v s.kmem.freelist, Op.set_freelist v] ++
  (if s.kmem.use_lock ≠ 0 then [Op.release] else [])

/-- The primitives that `kalloc()` executes, in program order (lines 108 to
123 of `kalloc.c`). -/
def kalloc_ops (cfg : Layout) (s : State) : List Op :=
  (if s.kmem.use_lock ≠ 0 then [Op.acquire] else []) ++
  (if s.kmem.freelist ≠ 0 then
    [Op.set_freelist (loadWord s.mem s.kmem.freelist),
     Op.set_is_allocated (V2P cfg s.kmem.freelist >>> PGSHIFT) 1,
     Op.set_birth_time (V2P cfg s.kmem.freelist >>> PGSHIFT) s.fifo_clock,
     Op.tick]
   else []) ++
  (if s.kmem.use_lock ≠ 0 then [Op.release] else [])

/-- Whether a primitive reads or writes the free list or `core_map`. -/
def Op.shared : Op → Bool
  | Op.set_is_allocated _ _ => true
  | Op.set_birth_time _ _ => true
  | Op.set_next _ _ => true
  | Op.set_freelist _ => true
  | _ => false

/-- Every primitive of the sequence that touches the free list or
`core_map` is executed while the lock is held; `held` tells whether the lock
is held when the sequence starts. -/
def in_critical_section : Bool → List Op → Bool
  | _, [] => true
  | _, Op.acquire :: ops => in_critical_section true ops
  | _, Op.release :: ops => in_critical_section false ops
  | held, op :: ops => (held || !op.shared) && in_critical_section held ops

/-- The invariant of `core_map` under the interface rules: every page on the
free list has the entry `is_allocated = 0`, `birth_time = 0`; an entry has
`is_allocated = 1` exactly when it is the entry of a live page; and
`is_allocated` is 0 or 1 everywhere. -/
def Meta (cfg : Layout) (σ : Sys) : Prop :=
  (∀ l, isFreeList σ.st.mem σ.st.kmem.freelist l →
    ∀ p ∈ l, σ.st.core_map (V2P cfg p >>> PGSHIFT) = ⟨0, 0⟩) ∧
  (∀ i, (σ.st.core_map i).is_allocated = 1 ↔
    ∃ p ∈ live σ.log, V2P cfg p >>> PGSHIFT = i) ∧
  (∀ i, (σ.st.core_map i).is_allocated = 0 ∨ (σ.st.core_map i).is_allocated = 1)

/-! ## The calls of `kfree` made by `freerange` on arbitrary arguments -/

/-- The addresses on which the loop of `freerange` calls `kfree`, in order;
when a call panics it is the last one. The test of the loop and the check of
`kfree` depend on the addresses only, not on the state. -/
def freerange_calls (cfg : Layout) (vend : Nat) : Nat → Nat → List Nat
  | 0, _ => []
  | fuel + 1, p =>
    if (p + PGSIZE) % WORD ≤ vend then
      if kfree_guard cfg p then [p]
      else p :: freerange_calls cfg vend fuel ((p + PGSIZE) % WORD)
    else []

/-- The addresses passed to `kfree` by `freerange(vstart, vend)`, and so by
`kinit1` and `kinit2`. -/
def kfreed_by_init (cfg : Layout) (vstart vend : Nat) : List Nat :=
  freerange_calls cfg vend FUEL (PGROUNDUP vstart)

/-- The addresses that some earlier successful `kalloc` returned and that
have not been passed to `kfree` since, neither by a caller nor by an
initialiser. -/
def outstanding (cfg : Layout) : List Event → List Nat
  | [] => []
  | Event.alloc r _ :: es => r :: outstanding cfg es
  | Event.free v :: es => (outstanding cfg es).filter (fun r => decide (r ≠ v))
  | Event.init a b :: es =>
    (outstanding cfg es).filter (fun r => decide (r ∉ kfreed_by_init cfg a b))
  | Event.nomem :: es => outstanding cfg es

/-- The arguments of a call are 32-bit values. -/
def Call.typed : Call → Prop
  | Call.kinit1 a b => a < WORD ∧ b < WORD
  | Call.kinit2 a b => a < WORD ∧ b < WORD
  | Call.freerange a b => a < WORD ∧ b < WORD
  | Call.kfree v => v < WORD
  | Call.kalloc => True

instance Call.typed.dec : (c : Call) → Decidable (Call.typed c)
  | Call.kinit1 _ _ => by unfold Call.typed; infer_instance
  | Call.kinit2 _ _ => by unfold Call.typed; infer_instance
  | Call.freerange _ _ => by unfold Call.typed; infer_instance
  | Call.kfree _ => by unfold Call.typed; infer_instance
  | Call.kalloc => by unfold Call.typed; infer_instance

/-- Every pointer the allocator can follow was checked by `kfree`: there is
a set of page-aligned 32-bit addresses that pass the check of `kfree` such
that the head of the free list is null or in the set, and the link stored in
each page of the set is null or in the set. -/
def Hygiene (cfg : Layout) (s : State) : Prop :=
  ∃ S : Nat → Prop,
    (∀ p, S p → p % PGSIZE = 0 ∧ p < WORD ∧ ¬ kfree_guard cfg p) ∧
    (s.kmem.freelist = 0 ∨ S s.kmem.freelist) ∧
    ∀ p, S p → loadWord s.mem p = 0 ∨ S (loadWord s.mem p)

end Kalloc

namespace Kalloc

/-! ## Memory lemmas -/

theorem loadWord_storeWord (mem : Nat → Nat) (a w : Nat) :
    loadWord (storeWord mem a w) a = w % WORD := by
  have h0 : storeWord mem a w a = w % 256 := by simp [storeWord]
  have h1 : storeWord mem a w (a + 1) = (w / 256) % 256 := by simp [storeWord]
  have h2 : storeWord mem a w (a + 2) = (w / 65536) % 256 := by simp [storeWord]
  have h3 : storeWord mem a w (a + 3) = (w / 16777216) % 256 := by simp [storeWord]
  unfold loadWord
  rw [h0, h1, h2, h3]
  simp only [WORD]
  omega

theorem loadWord_congr (mem mem1 : Nat → Nat) (a : Nat)
    (h : ∀ x, a ≤ x → x < a + 4 → mem1 x = mem x) :
    loadWord mem1 a = loadWord mem a := by
  unfold loadWord
  rw [h a (by omega) (by omega), h (a + 1) (by omega) (by omega),
    h (a + 2) (by omega) (by omega), h (a + 3) (by omega) (by omega)]

theorem loadWord_lt (mem : Nat → Nat) (a : Nat) : loadWord mem a < WORD := by
  unfold loadWord WORD
  omega

theorem land_mask (x : Nat) (hx : x < 2 ^ 32) :
    Nat.land x 4294963200 = x / 4096 * 4096 := by
  have hm : (4294963200 : Nat) = (2 ^ 20 - 1) <<< 12 := by decide
  have hr : x / 4096 * 4096 = (x >>> 12) <<< 12 := by
    rw [Nat.shiftLeft_eq, Nat.shiftRight_eq_div_pow]
  show x &&& 4294963200 = _
  rw [hm, hr]
  apply Nat.eq_of_testBit_eq
  intro i
  simp only [Nat.testBit_and, Nat.testBit_shiftLeft, Nat.testBit_shiftRight,
    Nat.testBit_two_pow_sub_one]
  by_cases h1 : 12 ≤ i
  · by_cases h2 : i - 12 < 20
    · simp [h1, h2]
    · have : x.testBit i = false := by
        apply Nat.testBit_eq_false_of_lt
        calc x < 2 ^ 32 := hx
          _ ≤ 2 ^ i := Nat.pow_le_pow_right (by decide) (by omega)
      have h3 : x.testBit (12 + (i - 12)) = false := by
        rw [show 12 + (i - 12) = i by omega]; exact this
      simp [h1, h2, this, h3]
  · simp [h1]

theorem PGROUNDUP_eq (sz : Nat) :
    PGROUNDUP sz = (sz + 4095) % 4294967296 / 4096 * 4096 := by
  unfold PGROUNDUP
  have := land_mask ((sz + 4095) % 4294967296) (Nat.mod_lt _ (by decide))
  simpa [PGSIZE, WORD] using this

/-! ## Single calls -/

theorem kfree_ok (cfg : Layout) (v : Nat) (s : State) (h : ¬ kfree_guard cfg v) :
    ∃ s1, kfree cfg v s = Result.ok s1 ∧ s1.kmem.freelist = v ∧
      s1.kmem.use_lock = s.kmem.use_lock ∧ s1.fifo_clock = s.fifo_clock ∧
      s1.mem = storeWord (memset s.mem v 1 PGSIZE) v s.kmem.freelist ∧
      s1.core_map = setEntry s.core_map (V2P cfg v >>> PGSHIFT) ⟨0, 0⟩ := by
  unfold kfree
  rw [if_neg h]
  refine ⟨_, rfl, rfl, rfl, rfl, rfl, ?_⟩
  funext i
  simp only [setEntry]
  split <;> simp_all

theorem kalloc_ok (cfg : Layout) (s : State) (h : s.kmem.freelist ≠ 0) :
    (kalloc cfg s).1 = s.kmem.freelist ∧
      (kalloc cfg s).2.kmem.freelist = loadWord s.mem s.kmem.freelist ∧
      (kalloc cfg s).2.kmem.use_lock = s.kmem.use_lock ∧
      (kalloc cfg s).2.fifo_clock = (s.fifo_clock + 1) % WORD ∧
      (kalloc cfg s).2.mem = s.mem ∧
      (kalloc cfg s).2.core_map =
        setEntry s.core_map (V2P cfg s.kmem.freelist >>> PGSHIFT) ⟨1, s.fifo_clock⟩ := by
  unfold kalloc
  rw [if_pos h]
  refine ⟨rfl, rfl, rfl, rfl, rfl, ?_⟩
  funext i
  simp only [setEntry]
  split <;> simp_all

theorem kalloc_empty (cfg : Layout) (s : State) (h : s.kmem.freelist = 0) :
    kalloc cfg s = (0, s) := by
  simp [kalloc, h]

theorem page_disjoint (q v x : Nat) (hq : q % PGSIZE = 0) (hv : v % PGSIZE = 0)
    (hne : q ≠ v) (h1 : q ≤ x) (h2 : x < q + 4) : ¬ (v ≤ x ∧ x < v + PGSIZE) := by
  simp only [PGSIZE] at *
  omega

theorem loadWord_kfree_other (mem : Nat → Nat) (q v w : Nat) (hq : q % PGSIZE = 0)
    (hv : v % PGSIZE = 0) (hne : q ≠ v) :
    loadWord (storeWord (memset mem v 1 PGSIZE) v w) q = loadWord mem q := by
  apply loadWord_congr
  intro x h1 h2
  have hd := page_disjoint q v x hq hv hne h1 h2
  have hd2 : ¬ (v ≤ x ∧ x < v + 4) := by
    simp only [PGSIZE] at hd
    omega
  simp only [storeWord, memset, if_neg hd, if_neg hd2]

theorem isFreeSeg_congr (mem mem1 : Nat → Nat) (l : List Nat) (h t : Nat)
    (hm : ∀ q ∈ l, loadWord mem1 q = loadWord mem q) (hl : isFreeSeg mem h l t) :
    isFreeSeg mem1 h l t := by
  induction l generalizing h with
  | nil => exact hl
  | cons p ps ih =>
    obtain ⟨h1, h2, h3⟩ := hl
    refine ⟨h1, h2, ?_⟩
    rw [hm p (List.mem_cons_self _ _)]
    exact ih _ (fun q hq => hm q (List.mem_cons_of_mem _ hq)) h3

theorem guard_aligned (cfg : Layout) (v : Nat) (h : ¬ kfree_guard cfg v) :
    v % PGSIZE = 0 ∧ cfg.end_ ≤ v ∧ V2P cfg v < cfg.PHYSTOP := by
  unfold kfree_guard at h
  omega

/-! ## Round trip, metadata, failure results -/

/-- C2 (amended): for every state whose head pointer is a 32-bit value and
every `v` that passes the check of `kfree` (with `end` a non-null address),
`kfree(v)` followed at once by `kalloc()` returns exactly `v` and restores
the head pointer `kmem.freelist`; and every sequence of page-aligned pages
not containing `v` that was the free list before is the free list again
afterwards. -/
theorem kfree_kalloc_round_trip (cfg : Layout) (s : State) (v : Nat)
    (hend : 0 < cfg.end_) (hv : ¬ kfree_guard cfg v) (hh : s.kmem.freelist < WORD) :
    ∃ s1 s2, kfree cfg v s = Result.ok s1 ∧ kalloc cfg s1 = (v, s2) ∧
      s2.kmem.freelist = s.kmem.freelist ∧
      ∀ l, v ∉ l → (∀ q ∈ l, q % PGSIZE = 0) →
        isFreeList s.mem s.kmem.freelist l → isFreeList s2.mem s2.kmem.freelist l := by
  obtain ⟨s1, h1, hf, _, _, hm, _⟩ := kfree_ok cfg v s hv
  obtain ⟨ha, hb, hc⟩ := guard_aligned cfg v hv
  have hv0 : v ≠ 0 := by omega
  have hne : s1.kmem.freelist ≠ 0 := by rw [hf]; exact hv0
  obtain ⟨k1, k2, _, _, k5, _⟩ := kalloc_ok cfg s1 hne
  have hhead : (kalloc cfg s1).2.kmem.freelist = s.kmem.freelist := by
    rw [k2, hf, hm, loadWord_storeWord]
    exact Nat.mod_eq_of_lt hh
  refine ⟨s1, (kalloc cfg s1).2, h1, ?_, hhead, ?_⟩
  · exact Prod.ext (by rw [k1, hf]) rfl
  · intro l hnot hal hl
    rw [hhead, k5, hm]
    apply isFreeSeg_congr s.mem _ l _ _ _ hl
    intro q hq
    exact loadWord_kfree_other s.mem q v _ (hal q hq) ha (fun e => hnot (e ▸ hq))

/-- Witness for `kfree_kalloc_round_trip`: the first page above 4 MiB in the
boot state of stock xv6. -/
theorem kfree_kalloc_round_trip_witness :
    ∃ s1 s2, kfree xv6 0x80400000 (State.initial fun _ => 0) = Result.ok s1 ∧
      kalloc xv6 s1 = (0x80400000, s2) ∧
      s2.kmem.freelist = (State.initial fun _ => 0).kmem.freelist ∧
      ∀ l, 0x80400000 ∉ l → (∀ q ∈ l, q % PGSIZE = 0) →
        isFreeList (State.initial fun _ => 0).mem (State.initial fun _ => 0).kmem.freelist l →
        isFreeList s2.mem s2.kmem.freelist l :=
  kfree_kalloc_round_trip xv6 (State.initial fun _ => 0) 0x80400000
    (by decide) (by decide) (by decide)

/-- C2 (counterexample): in the state reached by `kinit1` over the two pages
`0x80400000` and `0x80401000` of stock xv6, the free list is
`0x80401000, 0x80400000` and `0x80401000` passes the check of `kfree`; after
`kfree(0x80401000); kalloc()` the call returned that page and the head
pointer is what it was, but the free list is no longer the same: its head
links to itself and `0x80400000` is not reached any more. -/
theorem round_trip_changes_free_list :
    ∃ s s1 s2 : State,
      kinit1 xv6 0x80400000 0x80402000 (State.initial fun _ => 0) = Result.ok s ∧
      ¬ kfree_guard xv6 0x80401000 ∧
      kfree xv6 0x80401000 s = Result.ok s1 ∧ kalloc xv6 s1 = (0x80401000, s2) ∧
      isFreeList s.mem s.kmem.freelist [0x80401000, 0x80400000] ∧
      ¬ isFreeList s2.mem s2.kmem.freelist [0x80401000, 0x80400000] ∧
      walk s2.mem 3 s2.kmem.freelist = [0x80401000, 0x80401000, 0x80401000] := by
  refine ⟨_, _, _, rfl, by decide, rfl, rfl, ?_, ?_, ?_⟩
  · simp only [isFreeList, isFreeSeg]
    decide
  · simp only [isFreeList, isFreeSeg]
    decide
  · decide

/-- C3: after `kfree(v)` on a valid `v` the entry of `core_map` at index
`V2P(v) >> PGSHIFT` has `is_allocated = 0` and `birth_time = 0`; after
`kalloc()` on a non-empty free list returned `r`, the entry at index
`V2P(r) >> PGSHIFT` has `is_allocated = 1` and `birth_time` equal to the
value of `fifo_clock` at the call. -/
theorem metadata_consistency (cfg : Layout) (s : State) :
    (∀ v, ¬ kfree_guard cfg v → ∃ s1, kfree cfg v s = Result.ok s1 ∧
        (s1.core_map (V2P cfg v >>> PGSHIFT)).is_allocated = 0 ∧
        (s1.core_map (V2P cfg v >>> PGSHIFT)).birth_time = 0) ∧
    (s.kmem.freelist ≠ 0 →
        (kalloc cfg s).1 ≠ 0 ∧
        ((kalloc cfg s).2.core_map (V2P cfg (kalloc cfg s).1 >>> PGSHIFT)).is_allocated = 1 ∧
        ((kalloc cfg s).2.core_map (V2P cfg (kalloc cfg s).1 >>> PGSHIFT)).birth_time
          = s.fifo_clock) := by
  constructor
  · intro v hv
    obtain ⟨s1, h1, _, _, _, _, hc⟩ := kfree_ok cfg v s hv
    refine ⟨s1, h1, ?_, ?_⟩ <;> simp [hc, setEntry]
  · intro h
    obtain ⟨k1, _, _, _, _, k6⟩ := kalloc_ok cfg s h
    rw [k1, k6]
    refine ⟨h, ?_, ?_⟩ <;> simp [setEntry]

/-- Witness for `metadata_consistency`: both parts at concrete states of
stock xv6. -/
theorem metadata_consistency_witness :
    (∃ s1, kfree xv6 0x80400000 (State.initial fun _ => 0) = Result.ok s1 ∧
        (s1.core_map (V2P xv6 0x80400000 >>> PGSHIFT)).is_allocated = 0 ∧
        (s1.core_map (V2P xv6 0x80400000 >>> PGSHIFT)).birth_time = 0) ∧
    ((kalloc xv6 ⟨fun _ => ⟨0, 0⟩, 7, ⟨0, 0x80400000⟩, fun _ => 0⟩).1 ≠ 0 ∧
      ((kalloc xv6 ⟨fun _ => ⟨0, 0⟩, 7, ⟨0, 0x80400000⟩, fun _ => 0⟩).2.core_map
          (V2P xv6 (kalloc xv6 ⟨fun _ => ⟨0, 0⟩, 7, ⟨0, 0x80400000⟩, fun _ => 0⟩).1
            >>> PGSHIFT)).is_allocated = 1 ∧
      ((kalloc xv6 ⟨fun _ => ⟨0, 0⟩, 7, ⟨0, 0x80400000⟩, fun _ => 0⟩).2.core_map
          (V2P xv6 (kalloc xv6 ⟨fun _ => ⟨0, 0⟩, 7, ⟨0, 0x80400000⟩, fun _ => 0⟩).1
            >>> PGSHIFT)).birth_time = 7) :=
  ⟨(metadata_consistency xv6 (State.initial fun _ => 0)).1 0x80400000 (by decide),
   (metadata_consistency xv6 ⟨fun _ => ⟨0, 0⟩, 7, ⟨0, 0x80400000⟩, fun _ => 0⟩).2
     (by decide)⟩

/-- C4: `kalloc` returns 0 exactly when the free list is empty at the call;
in that case the whole state (free list, every `core_map` entry,
`fifo_clock`) is unchanged; and a call of `kalloc` always returns, it never
panics. -/
theorem kalloc_null_iff_empty (cfg : Layout) (σ : Sys) :
    ((kalloc cfg σ.st).1 = 0 ↔ σ.st.kmem.freelist = 0) ∧
    (σ.st.kmem.freelist = 0 → (kalloc cfg σ.st).2 = σ.st) ∧
    (∃ σ1, step cfg σ Call.kalloc = Result.ok σ1 ∧ σ1.st = (kalloc cfg σ.st).2) := by
  refine ⟨?_, ?_, ?_⟩
  · by_cases h : σ.st.kmem.freelist = 0
    · simp [kalloc_empty cfg σ.st h, h]
    · simp [(kalloc_ok cfg σ.st h).1, h]
  · intro h
    rw [kalloc_empty cfg σ.st h]
  · simp only [step]
    split
    · exact ⟨_, rfl, rfl⟩
    · exact ⟨_, rfl, rfl⟩

/-- Witness for `kalloc_null_iff_empty`: the boot state of stock xv6, whose
free list is empty. -/
theorem kalloc_null_iff_empty_witness :
    (kalloc xv6 (Sys.initial fun _ => 0).st).2 = (Sys.initial fun _ => 0).st :=
  (kalloc_null_iff_empty xv6 (Sys.initial fun _ => 0)).2.1 rfl

/-- C5: `kfree(v)` panics exactly when `v` is not a multiple of `PGSIZE`, or
`v < end`, or `V2P(v) >= PHYSTOP`; and the state at the panic is the state
at the call: nothing (free list, `core_map`, `fifo_clock`, page contents)
has been modified. -/
theorem kfree_panic_iff (cfg : Layout) (v : Nat) (s : State) :
    ((∃ s1, kfree cfg v s = Result.panic s1) ↔
      (v % PGSIZE ≠ 0 ∨ v < cfg.end_ ∨ cfg.PHYSTOP ≤ V2P cfg v)) ∧
    (∀ s1, kfree cfg v s = Result.panic s1 → s1 = s) := by
  by_cases h : kfree_guard cfg v
  · have hp : kfree cfg v s = Result.panic s := by simp [kfree, h]
    refine ⟨⟨fun _ => h, fun _ => ⟨s, hp⟩⟩, ?_⟩
    intro s1 h1
    rw [hp] at h1
    injection h1 with h2
    exact h2.symm
  · obtain ⟨s1, h1, _⟩ := kfree_ok cfg v s h
    refine ⟨⟨?_, fun hg => absurd hg h⟩, ?_⟩
    · rintro ⟨s2, h2⟩
      rw [h1] at h2
      cases h2
    · intro s2 h2
      rw [h1] at h2
      cases h2

/-- Witness for `kfree_panic_iff`: a misaligned address in the boot state of
stock xv6. -/
theorem kfree_panic_iff_witness :
    kfree xv6 0x80400001 (State.initial fun _ => 0) =
        Result.panic (State.initial fun _ => 0) ∧
      (State.initial fun _ => 0) = (State.initial fun _ => 0) :=
  ⟨rfl, (kfree_panic_iff xv6 0x80400001 (State.initial fun _ => 0)).2
    (State.initial fun _ => 0) rfl⟩

/-! ## Ranges -/

theorem PGROUNDUP_bounds (a : Nat) (h : a + PGSIZE ≤ WORD) :
    a ≤ PGROUNDUP a ∧ PGROUNDUP a < a + PGSIZE ∧ PGROUNDUP a % PGSIZE = 0 := by
  rw [PGROUNDUP_eq]
  simp only [PGSIZE, WORD] at *
  omega

theorem mem_pagesFrom (q p n : Nat) :
    q ∈ pagesFrom p n ↔ ∃ k, k < n ∧ q = p + k * PGSIZE := by
  induction n generalizing p with
  | zero => simp [pagesFrom]
  | succ n ih =>
    simp only [pagesFrom, List.mem_cons, ih]
    constructor
    · rintro (h | ⟨k, hk, h⟩)
      · exact ⟨0, by omega, by omega⟩
      · exact ⟨k + 1, by omega, by rw [h]; ring⟩
    · rintro ⟨k, hk, h⟩
      cases k with
      | zero => left; omega
      | succ k => right; exact ⟨k, by omega, by rw [h]; ring⟩

theorem pagesFrom_nodup (p n : Nat) : (pagesFrom p n).Nodup := by
  induction n generalizing p with
  | zero => simp [pagesFrom]
  | succ n ih =>
    simp only [pagesFrom, List.nodup_cons]
    refine ⟨?_, ih _⟩
    rw [mem_pagesFrom]
    rintro ⟨k, _, h⟩
    simp only [PGSIZE] at h
    omega

theorem mem_pagesOf (q vstart vend : Nat) (hp : PGROUNDUP vstart % PGSIZE = 0) :
    q ∈ pagesOf vstart vend ↔
      q % PGSIZE = 0 ∧ PGROUNDUP vstart ≤ q ∧ q + PGSIZE ≤ vend := by
  unfold pagesOf
  rw [mem_pagesFrom]
  simp only [PGSIZE] at *
  constructor
  · rintro ⟨k, hk, h⟩
    omega
  · rintro ⟨h1, h2, h3⟩
    exact ⟨(q - PGROUNDUP vstart) / 4096, by omega, by omega⟩

theorem freerange_loop_eq (cfg : Layout) (vend n : Nat) :
    ∀ (fuel p : Nat) (s : State), n < fuel → (n = 0 ∨ p + n * PGSIZE ≤ vend) →
      vend < p + (n + 1) * PGSIZE → p + (n + 1) * PGSIZE < WORD →
      freerange_loop cfg vend fuel p s = kfree_each cfg (pagesFrom p n) s := by
  induction n with
  | zero =>
    intro fuel p s hf _ h2 h3
    obtain ⟨f, rfl⟩ : ∃ f, fuel = f + 1 := ⟨fuel - 1, by omega⟩
    have hm : (p + PGSIZE) % WORD = p + PGSIZE := Nat.mod_eq_of_lt (by omega)
    have : ¬ (p + PGSIZE) % WORD ≤ vend := by rw [hm]; omega
    simp only [freerange_loop, if_neg this, pagesFrom, kfree_each]
  | succ n ih =>
    intro fuel p s hf h1 h2 h3
    obtain ⟨f, rfl⟩ : ∃ f, fuel = f + 1 := ⟨fuel - 1, by omega⟩
    have hle : p + (n + 1) * PGSIZE ≤ vend := by omega
    have hm : (p + PGSIZE) % WORD = p + PGSIZE :=
      Nat.mod_eq_of_lt (by simp only [PGSIZE] at *; omega)
    have hle2 : p + PGSIZE ≤ vend := by
      simp only [PGSIZE] at *; omega
    simp only [freerange_loop, hm, if_pos hle2, pagesFrom, kfree_each]
    cases kfree cfg p s with
    | ok s1 =>
      have h5 := ih f (p + PGSIZE) s1 (by omega)
        (by simp only [PGSIZE] at *; omega) (by simp only [PGSIZE] at *; omega)
        (by simp only [PGSIZE] at *; omega)
      exact h5
    | panic s1 => rfl
    | nofuel => rfl

theorem freerange_eq (cfg : Layout) (vstart vend : Nat) (s : State)
    (h1 : vstart ≤ vend) (h2 : vend + 2 * PGSIZE ≤ WORD) :
    freerange cfg vstart vend s = kfree_each cfg (pagesOf vstart vend) s := by
  obtain ⟨b1, b2, b3⟩ := PGROUNDUP_bounds vstart (by simp only [PGSIZE] at *; omega)
  unfold freerange pagesOf
  apply freerange_loop_eq
  · simp only [FUEL, PGSIZE, WORD] at *
    omega
  · simp only [PGSIZE] at *
    omega
  · simp only [PGSIZE] at *
    omega
  · simp only [PGSIZE, WORD] at *
    omega

/-! ## Pushing pages on the free list -/

theorem kfree_push (cfg : Layout) (v : Nat) (s : State) (l : List Nat) (t : Nat)
    (hv : ¬ kfree_guard cfg v) (hv0 : v ≠ 0) (hh : s.kmem.freelist < WORD)
    (hl : isFreeSeg s.mem s.kmem.freelist l t) (hnot : v ∉ l)
    (hal : ∀ q ∈ l, q % PGSIZE = 0) :
    ∃ s1, kfree cfg v s = Result.ok s1 ∧
      isFreeSeg s1.mem s1.kmem.freelist (v :: l) t ∧ s1.kmem.freelist = v := by
  obtain ⟨s1, h1, hf, _, _, hm, _⟩ := kfree_ok cfg v s hv
  obtain ⟨ha, _, _⟩ := guard_aligned cfg v hv
  refine ⟨s1, h1, ⟨hf, hv0, ?_⟩, hf⟩
  rw [hm, loadWord_storeWord, Nat.mod_eq_of_lt hh]
  apply isFreeSeg_congr s.mem _ l _ _ _ hl
  intro q hq
  exact loadWord_kfree_other s.mem q v _ (hal q hq) ha (fun e => hnot (e ▸ hq))

theorem kfree_each_push (cfg : Layout) (t : Nat) (ps : List Nat) :
    ∀ (s : State) (l : List Nat),
      (∀ p ∈ ps, ¬ kfree_guard cfg p ∧ p ≠ 0 ∧ p < WORD) → ps.Nodup →
      s.kmem.freelist < WORD → isFreeSeg s.mem s.kmem.freelist l t →
      (∀ p ∈ ps, p ∉ l) → (∀ q ∈ l, q % PGSIZE = 0) →
      ∃ s1, kfree_each cfg ps s = Result.ok s1 ∧
        isFreeSeg s1.mem s1.kmem.freelist (ps.reverse ++ l) t ∧
        s1.kmem.freelist < WORD := by
  induction ps with
  | nil =>
    intro s l _ _ hh hl _ _
    exact ⟨s, rfl, by simpa using hl, hh⟩
  | cons p ps ih =>
    intro s l hv hnd hh hl hdis hal
    obtain ⟨hg, hp0, hpw⟩ := hv p (List.mem_cons_self _ _)
    obtain ⟨s1, h1, h2, h3⟩ :=
      kfree_push cfg p s l t hg hp0 hh hl (hdis p (List.mem_cons_self _ _)) hal
    rw [List.nodup_cons] at hnd
    obtain ⟨s2, k1, k2, k3⟩ := ih s1 (p :: l)
      (fun q hq => hv q (List.mem_cons_of_mem _ hq)) hnd.2 (by rw [h3]; exact hpw) h2
      (by
        intro q hq hmem
        rcases List.mem_cons.1 hmem with e | hmem
        · exact hnd.1 (e ▸ hq)
        · exact hdis q (List.mem_cons_of_mem _ hq) hmem)
      (by
        intro q hq
        rcases List.mem_cons.1 hq with e | hq
        · rw [e]; exact (guard_aligned cfg p hg).1
        · exact hal q hq)
    refine ⟨s2, ?_, ?_, k3⟩
    · simp only [kfree_each, h1, k1]
    · simpa [List.reverse_cons, List.append_assoc] using k2

theorem kfree_each_frame (cfg : Layout) (ps : List Nat) :
    ∀ (s s1 : State), kfree_each cfg ps s = Result.ok s1 →
      s1.fifo_clock = s.fifo_clock ∧ s1.kmem.use_lock = s.kmem.use_lock ∧
      (∀ i, s.core_map i = ⟨0, 0⟩ → s1.core_map i = ⟨0, 0⟩) ∧
      (∀ p ∈ ps, s1.core_map (V2P cfg p >>> PGSHIFT) = ⟨0, 0⟩) ∧
      (∀ i, (∀ p ∈ ps, V2P cfg p >>> PGSHIFT ≠ i) → s1.core_map i = s.core_map i) := by
  induction ps with
  | nil =>
    intro s s1 h
    simp only [kfree_each] at h
    cases h
    simp
  | cons p ps ih =>
    intro s s1 h
    by_cases hg : kfree_guard cfg p
    · simp [kfree_each, kfree, hg] at h
    · obtain ⟨s2, h1, _, hu, hc, _, hcm⟩ := kfree_ok cfg p s hg
      simp only [kfree_each, h1] at h
      obtain ⟨k1, k2, k3, k4, k5⟩ := ih s2 s1 h
      refine ⟨by rw [k1, hc], by rw [k2, hu], ?_, ?_, ?_⟩
      · intro i hi
        apply k3
        rw [hcm]
        simp only [setEntry]
        split
        · rfl
        · exact hi
      · intro q hq
        rcases List.mem_cons.1 hq with e | hq
        · apply k3
          rw [hcm, e]
          simp [setEntry]
        · exact k4 q hq
      · intro i hi
        rw [k5 i (fun q hq => hi q (List.mem_cons_of_mem _ hq)), hcm]
        simp only [setEntry]
        rw [if_neg]
        exact fun e => hi p (List.mem_cons_self _ _) e.symm

/-! ## The invariant of rule-abiding call sequences -/

theorem Inv_initial (cfg : Layout) (mem : Nat → Nat) : Inv cfg (Sys.initial mem) := by
  refine ⟨[], rfl, by simp [Sys.initial, live], by simp [Sys.initial, State.initial, WORD], ?_⟩
  simp [Sys.initial, live]

theorem Inv_congr (cfg : Layout) (s s1 : State) (log : List Event)
    (hm : s1.mem = s.mem) (hf : s1.kmem.freelist = s.kmem.freelist)
    (h : Inv cfg ⟨s, log⟩) : Inv cfg ⟨s1, log⟩ := by
  obtain ⟨l, h1, h2, h3, h4⟩ := h
  exact ⟨l, by simpa only [hm, hf] using h1, h2, by simpa only [hf] using h3, h4⟩

theorem init_inv (cfg : Layout) (hend : 0 < cfg.end_) (s : State) (log : List Event)
    (a b : Nat) (hI : Inv cfg ⟨s, log⟩) (hV : ValidRange cfg a b)
    (hD : ∀ r ∈ regions log, b ≤ r.1 ∨ r.2 ≤ a) :
    ∃ s1, freerange cfg a b s = Result.ok s1 ∧ Inv cfg ⟨s1, Event.init a b :: log⟩ := by
  obtain ⟨l, h1, h2, h3, h4⟩ := hI
  obtain ⟨v1, v2, v3⟩ := hV
  obtain ⟨b1, b2, b3⟩ := PGROUNDUP_bounds a (by simp only [PGSIZE] at *; omega)
  have hpg : ∀ p ∈ pagesOf a b, p % PGSIZE = 0 ∧ a ≤ p ∧ p + PGSIZE ≤ b := by
    intro p hp
    obtain ⟨c1, c2, c3⟩ := (mem_pagesOf p a b b3).1 hp
    exact ⟨c1, by omega, c3⟩
  have hdis : ∀ p ∈ pagesOf a b, p ∉ l ++ live log := by
    intro p hp hmem
    obtain ⟨_, _, r, hr, r1, r2⟩ := h4 p hmem
    obtain ⟨_, c2, c3⟩ := hpg p hp
    have := hD r hr
    simp only [PGSIZE] at *
    omega
  obtain ⟨s1, k1, k2, k3⟩ := kfree_each_push cfg 0 (pagesOf a b) s l
    (by
      intro p hp
      obtain ⟨_, c2, c3⟩ := hpg p hp
      have hg := v3 p hp
      have := (guard_aligned cfg p hg).2.1
      exact ⟨hg, by omega, by omega⟩)
    (pagesFrom_nodup _ _) h3 h1
    (fun p hp hmem => hdis p hp (List.mem_append_left _ hmem))
    (fun q hq => (guard_aligned cfg q (h4 q (List.mem_append_left _ hq)).1).1)
  refine ⟨s1, by rw [freerange_eq cfg a b s v1 v2]; exact k1, (pagesOf a b).reverse ++ l,
    k2, ?_, k3, ?_⟩
  · show ((pagesOf a b).reverse ++ l ++ live log).Nodup
    rw [List.append_assoc, List.nodup_append]
    refine ⟨List.nodup_reverse.2 (pagesFrom_nodup _ _), h2, ?_⟩
    intro p hp hmem
    exact hdis p (List.mem_reverse.1 hp) hmem
  · intro p hp
    have hp1 : p ∈ (pagesOf a b).reverse ++ (l ++ live log) := by
      simpa [live, List.append_assoc] using hp
    rcases List.mem_append.1 hp1 with hp2 | hp2
    · have hp3 := List.mem_reverse.1 hp2
      obtain ⟨_, c2, c3⟩ := hpg p hp3
      exact ⟨v3 p hp3, by omega, (a, b), by simp [regions], c2, c3⟩
    · obtain ⟨g1, g2, r, hr, g3⟩ := h4 p hp2
      exact ⟨g1, g2, r, by simp [regions, hr], g3⟩

theorem kalloc_inv (cfg : Layout) (σ : Sys) (hI : Inv cfg σ) :
    ∃ σ1, step cfg σ Call.kalloc = Result.ok σ1 ∧ Inv cfg σ1 ∧
      ((kalloc cfg σ.st).1 ≠ 0 → (kalloc cfg σ.st).1 ∉ live σ.log) := by
  obtain ⟨l, h1, h2, h3, h4⟩ := hI
  cases l with
  | nil =>
    have h0 : σ.st.kmem.freelist = 0 := h1
    have hk := kalloc_empty cfg σ.st h0
    refine ⟨⟨σ.st, Event.nomem :: σ.log⟩, by simp [step, hk], ?_, by simp [hk]⟩
    exact ⟨[], h1, by simpa [live] using h2, h3, by simpa [live, regions] using h4⟩
  | cons p ps =>
    obtain ⟨e1, e2, e3⟩ := h1
    have hne : σ.st.kmem.freelist ≠ 0 := by rw [e1]; exact e2
    obtain ⟨k1, k2, _, _, k5, _⟩ := kalloc_ok cfg σ.st hne
    have hr : (kalloc cfg σ.st).1 = p := by rw [k1, e1]
    have hnd : (p :: (ps ++ live σ.log)).Nodup := by simpa using h2
    refine ⟨⟨(kalloc cfg σ.st).2, Event.alloc p
      ((kalloc cfg σ.st).2.core_map (V2P cfg p >>> PGSHIFT)).birth_time :: σ.log⟩,
      by simp [step, hr, e2], ?_, ?_⟩
    · refine ⟨ps, ?_, ?_, ?_, ?_⟩
      · show isFreeSeg (kalloc cfg σ.st).2.mem (kalloc cfg σ.st).2.kmem.freelist ps 0
        rw [k5, k2, e1]
        exact e3
      · show (ps ++ p :: live σ.log).Nodup
        exact (List.perm_middle.nodup_iff).2 hnd
      · show (kalloc cfg σ.st).2.kmem.freelist < WORD
        rw [k2]
        exact loadWord_lt _ _
      · intro q hq
        have hq1 : q ∈ p :: ps ++ live σ.log := by
          have : q ∈ ps ++ p :: live σ.log := hq
          simp only [List.mem_append, List.mem_cons] at this ⊢
          tauto
        obtain ⟨g1, g2, r, hr, g3⟩ := h4 q hq1
        exact ⟨g1, g2, r, by simpa [regions] using hr, g3⟩
    · intro _
      rw [hr]
      intro hmem
      exact (List.nodup_cons.1 hnd).1 (List.mem_append_right _ hmem)

theorem kfree_inv (cfg : Layout) (hend : 0 < cfg.end_) (σ : Sys) (v : Nat)
    (hI : Inv cfg σ) (hv : v ∈ live σ.log) :
    ∃ σ1, step cfg σ (Call.kfree v) = Result.ok σ1 ∧ Inv cfg σ1 := by
  obtain ⟨l, h1, h2, h3, h4⟩ := hI
  obtain ⟨g1, g2, _⟩ := h4 v (List.mem_append_right _ hv)
  have hv0 : v ≠ 0 := by
    have := (guard_aligned cfg v g1).2.1
    omega
  obtain ⟨n1, n2, n3⟩ := List.nodup_append.1 h2
  have hnot : v ∉ l := fun hm => n3 hm hv
  obtain ⟨s1, k1, k2, k3⟩ := kfree_push cfg v σ.st l 0 g1 hv0 h3 h1 hnot
    (fun q hq => (guard_aligned cfg q (h4 q (List.mem_append_left _ hq)).1).1)
  refine ⟨⟨s1, Event.free v :: σ.log⟩, by simp [step, record, k1], v :: l, k2, ?_, ?_, ?_⟩
  · show (v :: l ++ (live σ.log).erase v).Nodup
    rw [List.cons_append, List.nodup_cons, List.nodup_append]
    refine ⟨?_, n1, n2.erase v, ?_⟩
    · intro hm
      rcases List.mem_append.1 hm with hm | hm
      · exact hnot hm
      · exact (List.Nodup.mem_erase_iff n2).1 hm |>.1 rfl
    · intro q hq hm
      exact n3 hq (List.mem_of_mem_erase hm)
  · show s1.kmem.freelist < WORD
    rw [k3]
    exact g2
  · intro q hq
    have hq1 : q ∈ l ++ live σ.log := by
      have : q ∈ v :: l ++ (live σ.log).erase v := hq
      simp only [List.cons_append, List.mem_cons, List.mem_append] at this ⊢
      rcases this with e | hm | hm
      · right; rw [e]; exact hv
      · left; exact hm
      · right; exact List.mem_of_mem_erase hm
    obtain ⟨c1, c2, r, hr, c3⟩ := h4 q hq1
    exact ⟨c1, c2, r, by simpa [regions] using hr, c3⟩

theorem step_kinit1_ok (cfg : Layout) (σ : Sys) (a b : Nat) (s1 : State)
    (h : freerange cfg a b { σ.st with kmem := { σ.st.kmem with use_lock := 0 } }
      = Result.ok s1) :
    step cfg σ (Call.kinit1 a b) = Result.ok ⟨s1, Event.init a b :: σ.log⟩ := by
  simp only [step, kinit1, h, record]

theorem step_kinit2_ok (cfg : Layout) (σ : Sys) (a b : Nat) (s1 : State)
    (h : freerange cfg a b σ.st = Result.ok s1) :
    step cfg σ (Call.kinit2 a b) =
      Result.ok ⟨{ s1 with kmem := { s1.kmem with use_lock := 1 } },
        Event.init a b :: σ.log⟩ := by
  show record σ (Event.init a b) (kinit2 cfg a b σ.st) = _
  unfold kinit2
  rw [h]
  rfl

theorem step_freerange_ok (cfg : Layout) (σ : Sys) (a b : Nat) (s1 : State)
    (h : freerange cfg a b σ.st = Result.ok s1) :
    step cfg σ (Call.freerange a b) = Result.ok ⟨s1, Event.init a b :: σ.log⟩ := by
  simp only [step, h, record]

theorem step_inv (cfg : Layout) (hend : 0 < cfg.end_) (σ : Sys) (c : Call)
    (hI : Inv cfg σ) (hA : Allowed cfg σ c) :
    ∃ σ1, step cfg σ c = Result.ok σ1 ∧ Inv cfg σ1 := by
  cases c with
  | kinit1 a b =>
    have hI0 : Inv cfg ⟨{ σ.st with kmem := { σ.st.kmem with use_lock := 0 } }, σ.log⟩ :=
      Inv_congr cfg σ.st _ σ.log rfl rfl hI
    obtain ⟨s1, k1, k2⟩ := init_inv cfg hend _ σ.log a b hI0 hA.1 hA.2
    exact ⟨_, step_kinit1_ok cfg σ a b s1 k1, k2⟩
  | kinit2 a b =>
    obtain ⟨s1, k1, k2⟩ := init_inv cfg hend σ.st σ.log a b hI hA.1 hA.2
    have hI1 : Inv cfg ⟨{ s1 with kmem := { s1.kmem with use_lock := 1 } },
        Event.init a b :: σ.log⟩ := Inv_congr cfg s1 _ _ rfl rfl k2
    exact ⟨_, step_kinit2_ok cfg σ a b s1 k1, hI1⟩
  | freerange a b =>
    obtain ⟨s1, k1, k2⟩ := init_inv cfg hend σ.st σ.log a b hI hA.1 hA.2
    exact ⟨_, step_freerange_ok cfg σ a b s1 k1, k2⟩
  | kfree v => exact kfree_inv cfg hend σ v hI hA
  | kalloc =>
    obtain ⟨σ1, k1, k2, _⟩ := kalloc_inv cfg σ hI
    exact ⟨σ1, k1, k2⟩

theorem run_inv (cfg : Layout) (hend : 0 < cfg.end_) (cs : List Call) :
    ∀ σ, Inv cfg σ → Respects cfg σ cs → ∃ σ1, run cfg σ cs = Result.ok σ1 ∧ Inv cfg σ1 := by
  induction cs with
  | nil => exact fun σ hI _ => ⟨σ, rfl, hI⟩
  | cons c cs ih =>
    intro σ hI hR
    obtain ⟨hA, hR1⟩ := hR
    obtain ⟨σ1, k1, k2⟩ := step_inv cfg hend σ c hI hA
    rw [k1] at hR1
    obtain ⟨σ2, m1, m2⟩ := ih σ1 k2 hR1
    exact ⟨σ2, by simp only [run, k1, m1], m2⟩

theorem Respects_take (cfg : Layout) (cs : List Call) :
    ∀ (n : Nat) (σ : Sys), Respects cfg σ cs → Respects cfg σ (cs.take n) := by
  induction cs with
  | nil => intro n σ _; simp [Respects]
  | cons c cs ih =>
    intro n σ hR
    cases n with
    | zero => simp [Respects]
    | succ n =>
      obtain ⟨hA, hR1⟩ := hR
      refine ⟨hA, ?_⟩
      cases hs : step cfg σ c with
      | ok σ1 =>
        rw [hs] at hR1
        exact ih n σ1 hR1
      | panic s1 => trivial
      | nofuel => trivial

/-! ## No double allocation -/

/-- C1: in every call sequence from boot that obeys the interface rules
(ranges handed to `kinit1`/`kinit2`/`freerange` are valid and disjoint from
the ranges registered before, `kfree` is only called on a live page), every
prefix of the sequence runs to completion, the live pages after it are
pairwise distinct, and a `kalloc` called at that point does not return a
page that is live. -/
theorem no_double_allocation (cfg : Layout) (mem : Nat → Nat) (cs : List Call)
    (hend : 0 < cfg.end_) (hR : Respects cfg (Sys.initial mem) cs) (n : Nat) :
    ∃ σ, run cfg (Sys.initial mem) (cs.take n) = Result.ok σ ∧ (live σ.log).Nodup ∧
      ((kalloc cfg σ.st).1 ≠ 0 → (kalloc cfg σ.st).1 ∉ live σ.log) := by
  obtain ⟨σ, h1, h2⟩ := run_inv cfg hend (cs.take n) (Sys.initial mem)
    (Inv_initial cfg mem) (Respects_take cfg cs n _ hR)
  obtain ⟨_, _, _, h3⟩ := kalloc_inv cfg σ h2
  obtain ⟨l, _, hnd, _⟩ := h2
  exact ⟨σ, h1, (List.nodup_append.1 hnd).2.1, h3⟩

/-- Witness for `no_double_allocation`: boot of stock xv6, a first range of
four pages, allocations and releases, a second range of two pages. -/
theorem no_double_allocation_witness :
    ∃ σ, run xv6 (Sys.initial fun _ => 0)
        ([Call.kinit1 0x80400000 0x80404000, Call.kalloc, Call.kalloc,
          Call.kfree 0x80403000, Call.kalloc, Call.kinit2 0x80800000 0x80802000,
          Call.kalloc, Call.kfree 0x80402000, Call.kalloc].take 9) = Result.ok σ ∧
      (live σ.log).Nodup ∧
      ((kalloc xv6 σ.st).1 ≠ 0 → (kalloc xv6 σ.st).1 ∉ live σ.log) :=
  no_double_allocation xv6 (fun _ => 0) _ (by decide) (by decide) 9

/-! ## What one call does to the clock and to the history -/

theorem step_kalloc_ok (cfg : Layout) (σ : Sys) (h : σ.st.kmem.freelist ≠ 0) :
    step cfg σ Call.kalloc =
      Result.ok ⟨(kalloc cfg σ.st).2,
        Event.alloc σ.st.kmem.freelist σ.st.fifo_clock :: σ.log⟩ := by
  obtain ⟨k1, _, _, _, _, k6⟩ := kalloc_ok cfg σ.st h
  have hne : (kalloc cfg σ.st).1 ≠ 0 := by rw [k1]; exact h
  simp only [step, k1, k6, setEntry, if_true]
  rw [if_pos h]

theorem step_kalloc_empty (cfg : Layout) (σ : Sys) (h : σ.st.kmem.freelist = 0) :
    step cfg σ Call.kalloc = Result.ok ⟨σ.st, Event.nomem :: σ.log⟩ := by
  simp [step, kalloc_empty cfg σ.st h]

theorem step_kfree_ok (cfg : Layout) (σ : Sys) (v : Nat) (s1 : State)
    (h : kfree cfg v σ.st = Result.ok s1) :
    step cfg σ (Call.kfree v) = Result.ok ⟨s1, Event.free v :: σ.log⟩ := by
  simp only [step, h, record]

theorem run_cons_ok (cfg : Layout) (σ σ1 : Sys) (c : Call) (cs : List Call)
    (h : step cfg σ c = Result.ok σ1) : run cfg σ (c :: cs) = run cfg σ1 cs := by
  simp only [run, h]

theorem run_append_ok (cfg : Layout) (xs ys : List Call) :
    ∀ (σ σ1 : Sys), run cfg σ xs = Result.ok σ1 → run cfg σ (xs ++ ys) = run cfg σ1 ys := by
  induction xs with
  | nil =>
    intro σ σ1 h
    simp only [run] at h
    cases h
    rfl
  | cons c cs ih =>
    intro σ σ1 h
    cases hs : step cfg σ c with
    | ok σ2 =>
      rw [run_cons_ok cfg σ σ2 c cs hs] at h
      rw [List.cons_append, run_cons_ok cfg σ σ2 c _ hs]
      exact ih σ2 σ1 h
    | panic s1 => simp [run, hs] at h
    | nofuel => simp [run, hs] at h

theorem kfree_final_clock (cfg : Layout) (v : Nat) (s s1 : State)
    (h : (kfree cfg v s).final = some s1) : s1.fifo_clock = s.fifo_clock := by
  by_cases hg : kfree_guard cfg v
  · simp only [kfree, if_pos hg, Result.final] at h
    cases h
    rfl
  · obtain ⟨s2, h1, _, _, hc, _⟩ := kfree_ok cfg v s hg
    rw [h1] at h
    simp only [Result.final] at h
    cases h
    exact hc

theorem freerange_loop_final_clock (cfg : Layout) (vend fuel : Nat) :
    ∀ (p : Nat) (s s1 : State), (freerange_loop cfg vend fuel p s).final = some s1 →
      s1.fifo_clock = s.fifo_clock := by
  induction fuel with
  | zero =>
    intro p s s1 h
    simp [freerange_loop, Result.final] at h
  | succ f ih =>
    intro p s s1 h
    rw [freerange_loop] at h
    split at h
    · cases hk : kfree cfg p s with
      | ok s2 =>
        rw [hk] at h
        have h2 := ih _ s2 s1 h
        have h3 := kfree_final_clock cfg p s s2 (by rw [hk]; rfl)
        rw [h2, h3]
      | panic s2 =>
        rw [hk] at h
        have h3 := kfree_final_clock cfg p s s2 (by rw [hk]; rfl)
        simp only [Result.final] at h
        cases h
        exact h3
      | nofuel =>
        rw [hk] at h
        simp [Result.final] at h
    · simp only [Result.final] at h
      cases h
      rfl

theorem freerange_final_clock (cfg : Layout) (a b : Nat) (s s1 : State)
    (h : (freerange cfg a b s).final = some s1) : s1.fifo_clock = s.fifo_clock := by
  unfold freerange at h
  exact freerange_loop_final_clock cfg b FUEL _ s s1 h

theorem kinit1_final_clock (cfg : Layout) (a b : Nat) (s s1 : State)
    (h : (kinit1 cfg a b s).final = some s1) : s1.fifo_clock = s.fifo_clock := by
  unfold kinit1 at h
  have h1 := freerange_final_clock cfg a b _ s1 h
  exact h1

theorem kinit2_final_clock (cfg : Layout) (a b : Nat) (s s1 : State)
    (h : (kinit2 cfg a b s).final = some s1) : s1.fifo_clock = s.fifo_clock := by
  unfold kinit2 at h
  cases hk : freerange cfg a b s with
  | ok s2 =>
    have h3 := freerange_final_clock cfg a b s s2 (by rw [hk]; rfl)
    rw [hk] at h
    simp only [Result.final] at h
    cases h
    exact h3
  | panic s2 =>
    have h3 := freerange_final_clock cfg a b s s2 (by rw [hk]; rfl)
    rw [hk] at h
    simp only [Result.final] at h
    cases h
    exact h3
  | nofuel =>
    rw [hk] at h
    simp [Result.final] at h

theorem step_kinit1_eq (cfg : Layout) (σ : Sys) (a b : Nat) :
    step cfg σ (Call.kinit1 a b) = record σ (Event.init a b) (kinit1 cfg a b σ.st) := rfl

theorem step_kinit2_eq (cfg : Layout) (σ : Sys) (a b : Nat) :
    step cfg σ (Call.kinit2 a b) = record σ (Event.init a b) (kinit2 cfg a b σ.st) := rfl

theorem step_freerange_eq (cfg : Layout) (σ : Sys) (a b : Nat) :
    step cfg σ (Call.freerange a b) =
      record σ (Event.init a b) (freerange cfg a b σ.st) := rfl

theorem step_kfree_eq (cfg : Layout) (σ : Sys) (v : Nat) :
    step cfg σ (Call.kfree v) = record σ (Event.free v) (kfree cfg v σ.st) := rfl

theorem record_ok (σ σ1 : Sys) (e : Event) (r : Result State)
    (h : record σ e r = Result.ok σ1) :
    r = Result.ok σ1.st ∧ σ1.log = e :: σ.log := by
  cases r with
  | ok s =>
    simp only [record] at h
    cases h
    exact ⟨rfl, rfl⟩
  | panic s => simp [record] at h
  | nofuel => simp [record] at h

/-- The effect of one completed call on the clock and on the history: a
successful `kalloc` logs the page with the old clock value as its stamp and
advances the clock; every other call logs a different kind of event and
leaves the clock alone. -/
theorem step_effect (cfg : Layout) (σ σ1 : Sys) (c : Call)
    (h : step cfg σ c = Result.ok σ1) :
    (c = Call.kalloc ∧ σ.st.kmem.freelist ≠ 0 ∧
        σ1.log = Event.alloc σ.st.kmem.freelist σ.st.fifo_clock :: σ.log ∧
        σ1.st.fifo_clock = (σ.st.fifo_clock + 1) % WORD) ∨
    (σ1.st.fifo_clock = σ.st.fifo_clock ∧
      ((c = Call.kalloc ∧ σ1.log = Event.nomem :: σ.log) ∨
       (∃ v, c = Call.kfree v ∧ σ1.log = Event.free v :: σ.log) ∨
       (∃ a b, σ1.log = Event.init a b :: σ.log))) := by
  cases c with
  | kinit1 a b =>
    rw [step_kinit1_eq] at h
    obtain ⟨h1, h2⟩ := record_ok σ σ1 _ _ h
    exact Or.inr ⟨kinit1_final_clock cfg a b σ.st σ1.st (by rw [h1]; rfl),
      Or.inr (Or.inr ⟨a, b, h2⟩)⟩
  | kinit2 a b =>
    rw [step_kinit2_eq] at h
    obtain ⟨h1, h2⟩ := record_ok σ σ1 _ _ h
    exact Or.inr ⟨kinit2_final_clock cfg a b σ.st σ1.st (by rw [h1]; rfl),
      Or.inr (Or.inr ⟨a, b, h2⟩)⟩
  | freerange a b =>
    rw [step_freerange_eq] at h
    obtain ⟨h1, h2⟩ := record_ok σ σ1 _ _ h
    exact Or.inr ⟨freerange_final_clock cfg a b σ.st σ1.st (by rw [h1]; rfl),
      Or.inr (Or.inr ⟨a, b, h2⟩)⟩
  | kfree v =>
    rw [step_kfree_eq] at h
    obtain ⟨h1, h2⟩ := record_ok σ σ1 _ _ h
    exact Or.inr ⟨kfree_final_clock cfg v σ.st σ1.st (by rw [h1]; rfl),
      Or.inr (Or.inl ⟨v, rfl, h2⟩)⟩
  | kalloc =>
    by_cases h0 : σ.st.kmem.freelist = 0
    · rw [step_kalloc_empty cfg σ h0] at h
      cases h
      exact Or.inr ⟨rfl, Or.inl ⟨rfl, rfl⟩⟩
    · rw [step_kalloc_ok cfg σ h0] at h
      cases h
      exact Or.inl ⟨rfl, h0, rfl, (kalloc_ok cfg σ.st h0).2.2.2.1⟩

/-! ## Properties of whole runs -/

theorem run_induction (cfg : Layout) (P : Sys → Prop)
    (hstep : ∀ σ c σ1, P σ → step cfg σ c = Result.ok σ1 → P σ1) (cs : List Call) :
    ∀ σ σ1, P σ → run cfg σ cs = Result.ok σ1 → P σ1 := by
  induction cs with
  | nil =>
    intro σ σ1 hP h
    simp only [run] at h
    cases h
    exact hP
  | cons c cs ih =>
    intro σ σ1 hP h
    cases hs : step cfg σ c with
    | ok σ2 =>
      rw [run_cons_ok cfg σ σ2 c cs hs] at h
      exact ih σ2 σ1 (hstep σ c σ2 hP hs) h
    | panic s1 => simp [run, hs] at h
    | nofuel => simp [run, hs] at h

theorem run_respects_induction (cfg : Layout) (P : Sys → Prop)
    (hstep : ∀ σ c σ1, P σ → Allowed cfg σ c → step cfg σ c = Result.ok σ1 → P σ1)
    (cs : List Call) :
    ∀ σ σ1, P σ → Respects cfg σ cs → run cfg σ cs = Result.ok σ1 → P σ1 := by
  induction cs with
  | nil =>
    intro σ σ1 hP _ h
    simp only [run] at h
    cases h
    exact hP
  | cons c cs ih =>
    intro σ σ1 hP hR h
    obtain ⟨hA, hR1⟩ := hR
    cases hs : step cfg σ c with
    | ok σ2 =>
      rw [hs] at hR1
      rw [run_cons_ok cfg σ σ2 c cs hs] at h
      exact ih σ2 σ1 (hstep σ c σ2 hP hA hs) hR1 h
    | panic s1 => simp [run, hs] at h
    | nofuel => simp [run, hs] at h

theorem births_length (log : List Event) : (births log).length = (returned log).length := by
  induction log with
  | nil => rfl
  | cons e es ih => cases e <;> simp [births, returned, ih]

theorem Stamped_step (cfg : Layout) (c : Nat) (σ σ1 : Sys) (call : Call)
    (hP : Stamped c σ) (h : step cfg σ call = Result.ok σ1) : Stamped c σ1 := by
  obtain ⟨p1, p2⟩ := hP
  rcases step_effect cfg σ σ1 call h with ⟨_, _, hl, hc⟩ | ⟨hc, hl⟩
  · refine ⟨?_, ?_⟩
    · rw [hc, hl, p1]
      simp only [births, List.length_append, List.length_singleton]
      simp only [WORD]
      omega
    · intro i x hx
      rw [hl] at hx
      simp only [births] at hx
      by_cases hi : i < (births σ.log).length
      · rw [List.getElem?_append_left hi] at hx
        exact p2 i x hx
      · have hi2 : (births σ.log).length ≤ i := by omega
        rw [List.getElem?_append_right hi2] at hx
        have hi3 : i - (births σ.log).length = 0 := by
          by_contra hne
          have : ([σ.st.fifo_clock] : List Nat)[i - (births σ.log).length]? = none := by
            apply List.getElem?_eq_none
            simp only [List.length_singleton]
            omega
          rw [this] at hx
          cases hx
        rw [hi3] at hx
        simp only [List.getElem?_cons_zero, Option.some.injEq] at hx
        rw [← hx, p1]
        have : i = (births σ.log).length := by omega
        rw [this]
  · have hb : births σ1.log = births σ.log := by
      rcases hl with ⟨_, hl⟩ | ⟨v, _, hl⟩ | ⟨a, b, hl⟩ <;> rw [hl] <;> rfl
    exact ⟨by rw [hc, hb]; exact p1, by rw [hb]; exact p2⟩

theorem Balanced_step (cfg : Layout) (σ σ1 : Sys) (call : Call)
    (hP : Balanced σ) (hA : Allowed cfg σ call) (h : step cfg σ call = Result.ok σ1) :
    Balanced σ1 := by
  obtain ⟨p1, p2⟩ := hP
  rcases step_effect cfg σ σ1 call h with ⟨_, _, hl, _⟩ | ⟨_, ⟨_, hl⟩ | ⟨v, hc, hl⟩ | ⟨a, b, hl⟩⟩
  · rw [Balanced, hl]
    simp only [returned, released, live, List.length_cons, List.mem_cons]
    refine ⟨by omega, fun x => ?_⟩
    rw [p2 x]
    tauto
  · rw [Balanced, hl]
    exact ⟨p1, p2⟩
  · subst hc
    have hv : v ∈ live σ.log := hA
    rw [Balanced, hl]
    simp only [returned, released, live, List.length_cons, List.mem_cons]
    have hlen := List.length_erase_of_mem hv
    have hpos : 0 < (live σ.log).length := List.length_pos_of_mem hv
    refine ⟨by omega, fun x => ?_⟩
    rw [p2 x]
    have h1 : x ∈ (live σ.log).erase v → x ∈ live σ.log := List.mem_of_mem_erase
    have h2 : x ≠ v → x ∈ live σ.log → x ∈ (live σ.log).erase v :=
      fun e hx => (List.mem_erase_of_ne e).2 hx
    have h3 : x = v → x ∈ live σ.log := fun e => e ▸ hv
    by_cases e : x = v <;> tauto
  · rw [Balanced, hl]
    exact ⟨p1, p2⟩

/-! ## Long runs on a single page -/

theorem round_step (cfg : Layout) (v : Nat) (hg : ¬ kfree_guard cfg v) (hv0 : v ≠ 0)
    (σ : Sys) (hh : σ.st.kmem.freelist = v) :
    ∃ σ2, run cfg σ [Call.kalloc, Call.kfree v] = Result.ok σ2 ∧
      σ2.st.kmem.freelist = v ∧ σ2.st.fifo_clock = (σ.st.fifo_clock + 1) % WORD ∧
      σ2.log = Event.free v :: Event.alloc v σ.st.fifo_clock :: σ.log := by
  have hne : σ.st.kmem.freelist ≠ 0 := by rw [hh]; exact hv0
  have h1 := step_kalloc_ok cfg σ hne
  obtain ⟨_, _, _, k4, _, _⟩ := kalloc_ok cfg σ.st hne
  obtain ⟨s1, f1, f2, _, f4, _⟩ := kfree_ok cfg v (kalloc cfg σ.st).2 hg
  have h2 := step_kfree_ok cfg
    ⟨(kalloc cfg σ.st).2, Event.alloc σ.st.kmem.freelist σ.st.fifo_clock :: σ.log⟩ v s1 f1
  refine ⟨⟨s1, Event.free v :: Event.alloc σ.st.kmem.freelist σ.st.fifo_clock :: σ.log⟩,
    ?_, f2, by rw [← k4]; exact f4, ?_⟩
  · rw [run_cons_ok cfg _ _ _ _ h1, run_cons_ok cfg _ _ _ _ h2]
    rfl
  · rw [hh]

theorem rounds_run (cfg : Layout) (v : Nat) (hg : ¬ kfree_guard cfg v) (hv0 : v ≠ 0)
    (n : Nat) :
    ∀ σ : Sys, σ.st.kmem.freelist = v → σ.st.fifo_clock < WORD →
      ∃ σ1, run cfg σ (rounds v n) = Result.ok σ1 ∧ σ1.st.kmem.freelist = v ∧
        σ1.st.fifo_clock = (σ.st.fifo_clock + n) % WORD ∧
        (returned σ1.log).length = (returned σ.log).length + n := by
  induction n with
  | zero =>
    intro σ hh hc
    exact ⟨σ, rfl, hh, by rw [Nat.add_zero, Nat.mod_eq_of_lt hc], rfl⟩
  | succ n ih =>
    intro σ hh hc
    obtain ⟨σ2, r1, r2, r3, r4⟩ := round_step cfg v hg hv0 σ hh
    obtain ⟨σ3, q1, q2, q3, q4⟩ := ih σ2 r2 (by rw [r3]; exact Nat.mod_lt _ (by decide))
    refine ⟨σ3, ?_, q2, ?_, ?_⟩
    · have := run_append_ok cfg [Call.kalloc, Call.kfree v] (rounds v n) σ σ2 r1
      rw [← q1, ← this]
      rfl
    · rw [q3, r3]
      simp only [WORD]
      omega
    · rw [q4, r4]
      simp only [returned, List.length_cons]
      omega

theorem boot_one_page :
    ∃ σ1, step xv6 (Sys.initial fun _ => 0) (Call.kinit1 0x80400000 0x80401000)
        = Result.ok σ1 ∧
      σ1.st.kmem.freelist = 0x80400000 ∧ σ1.st.fifo_clock = 0 ∧
      σ1.log = [Event.init 0x80400000 0x80401000] :=
  ⟨_, rfl, rfl, rfl, rfl⟩

/-! ## The allocation clock -/

/-- C6 (amended): in a call sequence started in a state whose clock holds
`c`, if successful `kalloc` number `i` comes before successful `kalloc`
number `j` and the clock has not wrapped by then (`c + j < 2^32`), the
`birth_time` assigned by the first is strictly less than the `birth_time`
assigned by the second. -/
theorem birth_time_monotonic (cfg : Layout) (s : State) (cs : List Call) (σ : Sys)
    (i j x y : Nat) (h : run cfg ⟨s, []⟩ cs = Result.ok σ) (hij : i < j)
    (hj : s.fifo_clock + j < WORD) (hx : (births σ.log)[i]? = some x)
    (hy : (births σ.log)[j]? = some y) : x < y := by
  have h0 : Stamped s.fifo_clock ⟨s, []⟩ := by
    refine ⟨?_, ?_⟩
    · show s.fifo_clock = (s.fifo_clock + 0) % WORD
      rw [Nat.add_zero, Nat.mod_eq_of_lt (by omega)]
    · intro i x hx
      simp [births] at hx
  obtain ⟨_, p2⟩ := run_induction cfg (Stamped s.fifo_clock)
    (fun σ c σ1 hP hs => Stamped_step cfg _ σ σ1 c hP hs) cs _ σ h0 h
  rw [p2 i x hx, p2 j y hy, Nat.mod_eq_of_lt hj, Nat.mod_eq_of_lt (by omega)]
  omega

/-- Witness for `birth_time_monotonic`: two allocations after boot of stock
xv6 with four pages. -/
theorem birth_time_monotonic_witness :
    ∃ σ, run xv6 ⟨State.initial fun _ => 0, []⟩
        [Call.kinit1 0x80400000 0x80404000, Call.kalloc, Call.kalloc] = Result.ok σ ∧
      (births σ.log)[0]? = some 0 ∧ (births σ.log)[1]? = some 1 ∧ 0 < 1 :=
  ⟨_, rfl, rfl, rfl,
    birth_time_monotonic xv6 (State.initial fun _ => 0)
      [Call.kinit1 0x80400000 0x80404000, Call.kalloc, Call.kalloc] _ 0 1 0 1 rfl
      (by decide) (by decide) rfl rfl⟩

/-- C6 (counterexample): boot stock xv6 with the single page `0x80400000`,
allocate and release it `2^32 - 1` times, then call `kalloc`, `kfree`,
`kalloc`: the last two successful `kalloc` calls are stamped `4294967295`
and then `0`, so the later one has the smaller `birth_time`. -/
theorem birth_time_wraps :
    ∃ σ older, run xv6 (Sys.initial fun _ => 0)
        (Call.kinit1 0x80400000 0x80401000 ::
          (rounds 0x80400000 4294967295 ++
            [Call.kalloc, Call.kfree 0x80400000, Call.kalloc])) = Result.ok σ ∧
      σ.log = Event.alloc 0x80400000 0 :: Event.free 0x80400000 ::
        Event.alloc 0x80400000 4294967295 :: older ∧
      births σ.log = births older ++ [4294967295, 0] := by
  obtain ⟨σ1, b1, b2, b3, _⟩ := boot_one_page
  have hg : ¬ kfree_guard xv6 0x80400000 := by decide
  obtain ⟨σ2, r1, r2, r3, _⟩ := rounds_run xv6 0x80400000 hg (by decide) 4294967295 σ1 b2
    (by rw [b3]; decide)
  obtain ⟨σ3, q1, q2, q3, q4⟩ := round_step xv6 0x80400000 hg (by decide) σ2 r2
  have hne : σ3.st.kmem.freelist ≠ 0 := by rw [q2]; decide
  have h4 := step_kalloc_ok xv6 σ3 hne
  have hc2 : σ2.st.fifo_clock = 4294967295 := by rw [r3, b3]; decide
  have hc3 : σ3.st.fifo_clock = 0 := by rw [q3, hc2]; decide
  refine ⟨⟨(kalloc xv6 σ3.st).2,
    Event.alloc σ3.st.kmem.freelist σ3.st.fifo_clock :: σ3.log⟩, σ2.log, ?_, ?_, ?_⟩
  · rw [run_cons_ok xv6 _ _ _ _ b1, run_append_ok xv6 _ _ σ1 σ2 r1]
    have := run_append_ok xv6 [Call.kalloc, Call.kfree 0x80400000] [Call.kalloc] σ2 σ3 q1
    rw [show [Call.kalloc, Call.kfree 0x80400000, Call.kalloc]
      = [Call.kalloc, Call.kfree 0x80400000] ++ [Call.kalloc] from rfl, this,
      run_cons_ok xv6 _ _ _ _ h4]
    rfl
  · show Event.alloc σ3.st.kmem.freelist σ3.st.fifo_clock :: σ3.log = _
    rw [q2, hc3, q4, hc2]
  · show births (Event.alloc σ3.st.kmem.freelist σ3.st.fifo_clock :: σ3.log) = _
    rw [q2, hc3, q4, hc2]
    simp [births]

/-- C7 (amended): `fifo_clock` is 0 in the boot state; after every call
sequence from boot it equals the number of `kalloc` calls that returned a
non-null page, modulo `2^32`; `kfree`, `freerange`, `kinit1`, `kinit2`
(whether they return or panic) and a failing `kalloc` leave it unchanged,
and a successful `kalloc` adds one modulo `2^32`. -/
theorem fifo_clock_counts (cfg : Layout) (mem : Nat → Nat) :
    (State.initial mem).fifo_clock = 0 ∧
    (∀ cs σ, run cfg (Sys.initial mem) cs = Result.ok σ →
      σ.st.fifo_clock = (returned σ.log).length % WORD) ∧
    (∀ v s s1, (kfree cfg v s).final = some s1 → s1.fifo_clock = s.fifo_clock) ∧
    (∀ a b s s1, (freerange cfg a b s).final = some s1 → s1.fifo_clock = s.fifo_clock) ∧
    (∀ a b s s1, (kinit1 cfg a b s).final = some s1 → s1.fifo_clock = s.fifo_clock) ∧
    (∀ a b s s1, (kinit2 cfg a b s).final = some s1 → s1.fifo_clock = s.fifo_clock) ∧
    (∀ s, (kalloc cfg s).1 = 0 → (kalloc cfg s).2.fifo_clock = s.fifo_clock) ∧
    (∀ s, (kalloc cfg s).1 ≠ 0 →
      (kalloc cfg s).2.fifo_clock = (s.fifo_clock + 1) % WORD) := by
  refine ⟨rfl, ?_, kfree_final_clock cfg, freerange_final_clock cfg,
    kinit1_final_clock cfg, kinit2_final_clock cfg, ?_, ?_⟩
  · intro cs σ h
    have h0 : Stamped 0 (Sys.initial mem) :=
      ⟨rfl, fun i x hx => by simp [Sys.initial, births] at hx⟩
    obtain ⟨p1, _⟩ := run_induction cfg (Stamped 0)
      (fun σ c σ1 hP hs => Stamped_step cfg _ σ σ1 c hP hs) cs _ σ h0 h
    rw [p1, births_length, Nat.zero_add]
  · intro s h
    by_cases h0 : s.kmem.freelist = 0
    · rw [kalloc_empty cfg s h0]
    · exact absurd ((kalloc_ok cfg s h0).1 ▸ h) h0
  · intro s h
    by_cases h0 : s.kmem.freelist = 0
    · rw [kalloc_empty cfg s h0] at h
      exact absurd rfl h
    · exact (kalloc_ok cfg s h0).2.2.2.1

/-- Witness for `fifo_clock_counts`: boot of stock xv6 with four pages, two
allocations, one release, and a misaligned `kfree` that panics. -/
theorem fifo_clock_counts_witness :
    (∃ σ, run xv6 (Sys.initial fun _ => 0)
        [Call.kinit1 0x80400000 0x80404000, Call.kalloc, Call.kalloc,
          Call.kfree 0x80403000] = Result.ok σ ∧
      σ.st.fifo_clock = (returned σ.log).length % WORD) ∧
    (∃ s1, (kfree xv6 0x80400001 (State.initial fun _ => 0)).final = some s1 ∧
      s1.fifo_clock = (State.initial fun _ => 0).fifo_clock) :=
  ⟨⟨_, rfl, (fifo_clock_counts xv6 (fun _ => 0)).2.1
      [Call.kinit1 0x80400000 0x80404000, Call.kalloc, Call.kalloc,
        Call.kfree 0x80403000] _ rfl⟩,
   ⟨_, rfl, (fifo_clock_counts xv6 (fun _ => 0)).2.2.1 0x80400001 _ _ rfl⟩⟩

/-- C7 (counterexample): boot stock xv6 with the single page `0x80400000`
and allocate and release it `2^32` times: `2^32` calls of `kalloc` returned
a non-null page, and `fifo_clock` is 0. -/
theorem fifo_clock_wraps :
    ∃ σ, run xv6 (Sys.initial fun _ => 0)
        (Call.kinit1 0x80400000 0x80401000 :: rounds 0x80400000 4294967296)
        = Result.ok σ ∧
      (returned σ.log).length = 4294967296 ∧ σ.st.fifo_clock = 0 := by
  obtain ⟨σ1, b1, b2, b3, b4⟩ := boot_one_page
  obtain ⟨σ2, r1, _, r3, r4⟩ := rounds_run xv6 0x80400000 (by decide) (by decide)
    4294967296 σ1 b2 (by rw [b3]; decide)
  refine ⟨σ2, by rw [run_cons_ok xv6 _ _ _ _ b1]; exact r1, ?_, ?_⟩
  · rw [r4, b4]
    rfl
  · rw [r3, b3]
    decide

/-! ## Conservation -/

theorem dedup_length_eq (xs ys : List Nat) (h : ∀ x, x ∈ xs ↔ x ∈ ys) :
    xs.dedup.length = ys.dedup.length := by
  apply List.Perm.length_eq
  apply (List.perm_ext_iff_of_nodup (List.nodup_dedup xs) (List.nodup_dedup ys)).2
  intro x
  simp only [List.mem_dedup]
  exact h x

/-! ## Registration of a range -/

theorem kfree_each_registers (cfg : Layout) (a b : Nat) (s : State)
    (hend : 0 < cfg.end_) (hV : ValidRange cfg a b) (hh : s.kmem.freelist < WORD) :
    ∃ s1, kfree_each cfg (pagesOf a b) s = Result.ok s1 ∧ Registered cfg a b s s1 ∧
      s1.fifo_clock = s.fifo_clock := by
  obtain ⟨v1, v2, v3⟩ := hV
  obtain ⟨_, _, b3⟩ := PGROUNDUP_bounds a (by simp only [PGSIZE] at *; omega)
  obtain ⟨s1, k1, k2, _⟩ := kfree_each_push cfg s.kmem.freelist (pagesOf a b) s []
    (by
      intro p hp
      obtain ⟨_, _, c3⟩ := (mem_pagesOf p a b b3).1 hp
      have hg := v3 p hp
      have := (guard_aligned cfg p hg).2.1
      exact ⟨hg, by omega, by omega⟩)
    (pagesFrom_nodup _ _) hh rfl (fun _ _ h => by cases h) (fun _ h => by cases h)
  obtain ⟨f1, _, _, f4, _⟩ := kfree_each_frame cfg (pagesOf a b) s s1 k1
  refine ⟨s1, k1, ⟨by simpa using k2, ?_⟩, f1⟩
  intro p hp
  rw [f4 p hp]
  exact ⟨rfl, rfl⟩

/-- C10 (amended): for a range with `vstart <= vend` that ends at least two
pages below the top of the address space and whose pages all pass the check
of `kfree`, `freerange(vstart, vend)` calls `kfree`, in ascending order, on
exactly the page-aligned addresses `p` with `PGROUNDUP(vstart) <= p` and
`p + PGSIZE <= vend`; `kinit1` and `kinit2` do the same; afterwards the free
list leads through these pages to the old head, and each of them has
`is_allocated = 0` and `birth_time = 0`. -/
theorem range_registration (cfg : Layout) (a b : Nat) (s : State)
    (hend : 0 < cfg.end_) (hV : ValidRange cfg a b) (hh : s.kmem.freelist < WORD) :
    (∀ p, p ∈ pagesOf a b ↔ p % PGSIZE = 0 ∧ PGROUNDUP a ≤ p ∧ p + PGSIZE ≤ b) ∧
    freerange cfg a b s = kfree_each cfg (pagesOf a b) s ∧
    kinit1 cfg a b s =
      kfree_each cfg (pagesOf a b) { s with kmem := { s.kmem with use_lock := 0 } } ∧
    ∃ s1 s2 s3, freerange cfg a b s = Result.ok s1 ∧ kinit1 cfg a b s = Result.ok s2 ∧
      kinit2 cfg a b s = Result.ok s3 ∧
      s3 = { s1 with kmem := { s1.kmem with use_lock := 1 } } ∧
      Registered cfg a b s s1 ∧ Registered cfg a b s s2 ∧ Registered cfg a b s s3 := by
  obtain ⟨_, _, b3⟩ := PGROUNDUP_bounds a
    (by have := hV.1; have := hV.2.1; simp only [PGSIZE] at *; omega)
  have e1 := freerange_eq cfg a b s hV.1 hV.2.1
  have e2 : kinit1 cfg a b s =
      kfree_each cfg (pagesOf a b) { s with kmem := { s.kmem with use_lock := 0 } } := by
    unfold kinit1
    exact freerange_eq cfg a b _ hV.1 hV.2.1
  obtain ⟨s1, k1, k2, _⟩ := kfree_each_registers cfg a b s hend hV hh
  obtain ⟨s2, m1, m2, _⟩ := kfree_each_registers cfg a b
    { s with kmem := { s.kmem with use_lock := 0 } } hend hV hh
  have e3 : kinit2 cfg a b s =
      Result.ok { s1 with kmem := { s1.kmem with use_lock := 1 } } := by
    unfold kinit2
    rw [e1, k1]
  exact ⟨fun p => mem_pagesOf p a b b3, e1, e2, s1, s2, _, by rw [e1]; exact k1,
    by rw [e2]; exact m1, e3, rfl, k2, m2, k2⟩

/-- Witness for `range_registration`: a range of stock xv6 that starts off a
page boundary and holds three pages. -/
theorem range_registration_witness :
    (∀ p, p ∈ pagesOf 0x80400001 0x80404000 ↔
      p % PGSIZE = 0 ∧ PGROUNDUP 0x80400001 ≤ p ∧ p + PGSIZE ≤ 0x80404000) ∧
    freerange xv6 0x80400001 0x80404000 (State.initial fun _ => 0) =
      kfree_each xv6 (pagesOf 0x80400001 0x80404000) (State.initial fun _ => 0) ∧
    kinit1 xv6 0x80400001 0x80404000 (State.initial fun _ => 0) =
      kfree_each xv6 (pagesOf 0x80400001 0x80404000)
        { (State.initial fun _ => 0) with
          kmem := { (State.initial fun _ => 0).kmem with use_lock := 0 } } ∧
    ∃ s1 s2 s3,
      freerange xv6 0x80400001 0x80404000 (State.initial fun _ => 0) = Result.ok s1 ∧
      kinit1 xv6 0x80400001 0x80404000 (State.initial fun _ => 0) = Result.ok s2 ∧
      kinit2 xv6 0x80400001 0x80404000 (State.initial fun _ => 0) = Result.ok s3 ∧
      s3 = { s1 with kmem := { s1.kmem with use_lock := 1 } } ∧
      Registered xv6 0x80400001 0x80404000 (State.initial fun _ => 0) s1 ∧
      Registered xv6 0x80400001 0x80404000 (State.initial fun _ => 0) s2 ∧
      Registered xv6 0x80400001 0x80404000 (State.initial fun _ => 0) s3 :=
  range_registration xv6 0x80400001 0x80404000 (State.initial fun _ => 0)
    (by decide) (by unfold ValidRange; decide) (by decide)

/-- C10 (counterexample): in stock xv6 take `vstart = 0x80400000` and
`vend = 0x80401001`. The page-aligned addresses `p` with
`PGROUNDUP(vstart) <= p < vend` are `0x80400000` and `0x80401000`, and both
pass the check of `kfree`; but `freerange` makes the single call
`kfree(0x80400000)`, and afterwards the free list is that one page:
`0x80401000` is not on it. -/
theorem freerange_skips_partial_page :
    (0x80401000 % PGSIZE = 0 ∧ PGROUNDUP 0x80400000 ≤ 0x80401000 ∧
      0x80401000 < 0x80401001 ∧ ¬ kfree_guard xv6 0x80401000) ∧
    ¬ kfree_guard xv6 0x80400000 ∧
    freerange xv6 0x80400000 0x80401001 (State.initial fun _ => 0) =
      kfree xv6 0x80400000 (State.initial fun _ => 0) ∧
    ∃ s1, freerange xv6 0x80400000 0x80401001 (State.initial fun _ => 0) = Result.ok s1 ∧
      isFreeList s1.mem s1.kmem.freelist [0x80400000] ∧
      walk s1.mem 5 s1.kmem.freelist = [0x80400000] ∧
      0x80401000 ∉ walk s1.mem 5 s1.kmem.freelist := by
  refine ⟨by decide, by decide, rfl, _, rfl, ?_, by decide, by decide⟩
  simp only [isFreeList, isFreeSeg]
  decide

/-! ## The four-page scenario -/

theorem pagesFrom_length (p n : Nat) : (pagesFrom p n).length = n := by
  induction n generalizing p with
  | zero => rfl
  | succ n ih => simp [pagesFrom, ih]

theorem step_kalloc_pop (cfg : Layout) (σ : Sys) (p : Nat) (ps : List Nat)
    (hl : isFreeList σ.st.mem σ.st.kmem.freelist (p :: ps)) :
    ∃ σ1, step cfg σ Call.kalloc = Result.ok σ1 ∧
      σ1.log = Event.alloc p σ.st.fifo_clock :: σ.log ∧
      isFreeList σ1.st.mem σ1.st.kmem.freelist ps ∧
      σ1.st.fifo_clock = (σ.st.fifo_clock + 1) % WORD := by
  obtain ⟨e1, e2, e3⟩ := hl
  have hne : σ.st.kmem.freelist ≠ 0 := by rw [e1]; exact e2
  obtain ⟨_, k2, _, k4, k5, _⟩ := kalloc_ok cfg σ.st hne
  refine ⟨⟨(kalloc cfg σ.st).2,
    Event.alloc σ.st.kmem.freelist σ.st.fifo_clock :: σ.log⟩,
    step_kalloc_ok cfg σ hne, by rw [e1], ?_, k4⟩
  show isFreeSeg (kalloc cfg σ.st).2.mem (kalloc cfg σ.st).2.kmem.freelist ps 0
  rw [k5, k2, e1]
  exact e3

theorem free_then_alloc (cfg : Layout) (σ : Sys) (p : Nat) (hg : ¬ kfree_guard cfg p)
    (hp0 : p ≠ 0) :
    ∃ σ2, run cfg σ [Call.kfree p, Call.kalloc] = Result.ok σ2 ∧
      σ2.log = Event.alloc p σ.st.fifo_clock :: Event.free p :: σ.log := by
  obtain ⟨s1, f1, f2, _, f4, _⟩ := kfree_ok cfg p σ.st hg
  have h1 := step_kfree_ok cfg σ p s1 f1
  have hne : (⟨s1, Event.free p :: σ.log⟩ : Sys).st.kmem.freelist ≠ 0 := by
    show s1.kmem.freelist ≠ 0
    rw [f2]
    exact hp0
  have h2 := step_kalloc_ok cfg ⟨s1, Event.free p :: σ.log⟩ hne
  refine ⟨⟨(kalloc cfg s1).2,
    Event.alloc s1.kmem.freelist s1.fifo_clock :: Event.free p :: σ.log⟩, ?_, ?_⟩
  · rw [run_cons_ok cfg _ _ _ _ h1, run_cons_ok cfg _ _ _ _ h2]
    rfl
  · show Event.alloc s1.kmem.freelist s1.fifo_clock :: Event.free p :: σ.log = _
    rw [f2, f4]

/-- C9: from the boot state (empty free list, `fifo_clock = 0`), after
`kinit1(vstart, vend)` over a valid range of exactly four pages, four calls
of `kalloc` return four pairwise distinct non-null addresses stamped
0, 1, 2, 3 in call order, and a fifth returns 0; then, for any `p` of the
four, `kfree(p)` followed by `kalloc()` returns `p` stamped 4. -/
theorem four_page_scenario (cfg : Layout) (mem : Nat → Nat) (a b : Nat)
    (hend : 0 < cfg.end_) (hV : ValidRange cfg a b) (h4 : (pagesOf a b).length = 4) :
    ∃ a0 a1 a2 a3 σ5,
      run cfg (Sys.initial mem)
        [Call.kinit1 a b, Call.kalloc, Call.kalloc, Call.kalloc, Call.kalloc, Call.kalloc]
        = Result.ok σ5 ∧
      σ5.log = [Event.nomem, Event.alloc a3 3, Event.alloc a2 2, Event.alloc a1 1,
        Event.alloc a0 0, Event.init a b] ∧
      [a0, a1, a2, a3].Nodup ∧ a0 ≠ 0 ∧ a1 ≠ 0 ∧ a2 ≠ 0 ∧ a3 ≠ 0 ∧
      ∀ p ∈ [a0, a1, a2, a3], ∃ σ7,
        run cfg σ5 [Call.kfree p, Call.kalloc] = Result.ok σ7 ∧
        σ7.log = Event.alloc p 4 :: Event.free p :: σ5.log := by
  have hn : (b - PGROUNDUP a) / PGSIZE = 4 := by
    have := pagesFrom_length (PGROUNDUP a) ((b - PGROUNDUP a) / PGSIZE)
    unfold pagesOf at h4
    omega
  have hpages : pagesOf a b = [PGROUNDUP a, PGROUNDUP a + PGSIZE,
      PGROUNDUP a + PGSIZE + PGSIZE, PGROUNDUP a + PGSIZE + PGSIZE + PGSIZE] := by
    unfold pagesOf
    rw [hn]
    rfl
  have hnd : (pagesOf a b).Nodup := pagesFrom_nodup _ _
  have hok : ∀ p ∈ pagesOf a b, ¬ kfree_guard cfg p ∧ p ≠ 0 := by
    intro p hp
    have hg := hV.2.2 p hp
    have := (guard_aligned cfg p hg).2.1
    exact ⟨hg, by omega⟩
  obtain ⟨s1, k1, ⟨k2, _⟩, k3⟩ := kfree_each_registers cfg a b
    { (State.initial mem) with kmem := { (State.initial mem).kmem with use_lock := 0 } }
    hend hV (by show (0 : Nat) < WORD; decide)
  have hs1 : step cfg (Sys.initial mem) (Call.kinit1 a b) =
      Result.ok ⟨s1, [Event.init a b]⟩ := by
    apply step_kinit1_ok
    rw [freerange_eq cfg a b _ hV.1 hV.2.1]
    exact k1
  rw [hpages] at k2 hnd hok
  simp only [List.reverse_cons, List.reverse_nil, List.nil_append, List.cons_append,
    List.singleton_append] at k2
  have hc1 : s1.fifo_clock = 0 := k3
  obtain ⟨σ2, t2, l2, f2, c2⟩ := step_kalloc_pop cfg ⟨s1, [Event.init a b]⟩ _ _ k2
  obtain ⟨σ3, t3, l3, f3, c3⟩ := step_kalloc_pop cfg σ2 _ _ f2
  obtain ⟨σ4, t4, l4, f4, c4⟩ := step_kalloc_pop cfg σ3 _ _ f3
  obtain ⟨σ5, t5, l5, f5, c5⟩ := step_kalloc_pop cfg σ4 _ _ f4
  have t6 := step_kalloc_empty cfg σ5 f5
  have d2 : σ2.st.fifo_clock = 1 := by rw [c2]; show (s1.fifo_clock + 1) % WORD = 1; rw [hc1]; rfl
  have d3 : σ3.st.fifo_clock = 2 := by rw [c3, d2]; rfl
  have d4 : σ4.st.fifo_clock = 3 := by rw [c4, d3]; rfl
  have d5 : σ5.st.fifo_clock = 4 := by rw [c5, d4]; rfl
  refine ⟨PGROUNDUP a + PGSIZE + PGSIZE + PGSIZE, PGROUNDUP a + PGSIZE + PGSIZE,
    PGROUNDUP a + PGSIZE, PGROUNDUP a, ⟨σ5.st, Event.nomem :: σ5.log⟩, ?_, ?_, ?_,
    (hok _ (by simp)).2, (hok _ (by simp)).2, (hok _ (by simp)).2, (hok _ (by simp)).2, ?_⟩
  · rw [run_cons_ok cfg _ _ _ _ hs1, run_cons_ok cfg _ _ _ _ t2,
      run_cons_ok cfg _ _ _ _ t3, run_cons_ok cfg _ _ _ _ t4,
      run_cons_ok cfg _ _ _ _ t5, run_cons_ok cfg _ _ _ _ t6]
    rfl
  · show Event.nomem :: σ5.log = _
    rw [l5, l4, l3, l2, d4, d3, d2]
    show _ = [Event.nomem, Event.alloc _ 3, Event.alloc _ 2, Event.alloc _ 1,
        Event.alloc _ 0, Event.init a b]
    rw [hc1]
  · have := List.nodup_reverse.2 hnd
    simpa using this
  · intro p hp
    have hp1 : p ∈ [PGROUNDUP a, PGROUNDUP a + PGSIZE, PGROUNDUP a + PGSIZE + PGSIZE,
        PGROUNDUP a + PGSIZE + PGSIZE + PGSIZE] := by
      simp only [List.mem_cons, List.mem_singleton, List.not_mem_nil, or_false] at hp ⊢
      rcases hp with h | h | h | h
      · exact Or.inr (Or.inr (Or.inr h))
      · exact Or.inr (Or.inr (Or.inl h))
      · exact Or.inr (Or.inl h)
      · exact Or.inl h
    obtain ⟨g1, g2⟩ := hok p hp1
    obtain ⟨σ7, r1, r2⟩ := free_then_alloc cfg ⟨σ5.st, Event.nomem :: σ5.log⟩ p g1 g2
    refine ⟨σ7, r1, ?_⟩
    rw [r2]
    show Event.alloc p σ5.st.fifo_clock :: _ = _
    rw [d5]

/-- Witness for `four_page_scenario`: the four pages from `0x80400000` of
stock xv6. -/
theorem four_page_scenario_witness :
    ∃ a0 a1 a2 a3 σ5,
      run xv6 (Sys.initial fun _ => 0)
        [Call.kinit1 0x80400000 0x80404000, Call.kalloc, Call.kalloc, Call.kalloc,
          Call.kalloc, Call.kalloc] = Result.ok σ5 ∧
      σ5.log = [Event.nomem, Event.alloc a3 3, Event.alloc a2 2, Event.alloc a1 1,
        Event.alloc a0 0, Event.init 0x80400000 0x80404000] ∧
      [a0, a1, a2, a3].Nodup ∧ a0 ≠ 0 ∧ a1 ≠ 0 ∧ a2 ≠ 0 ∧ a3 ≠ 0 ∧
      ∀ p ∈ [a0, a1, a2, a3], ∃ σ7,
        run xv6 σ5 [Call.kfree p, Call.kalloc] = Result.ok σ7 ∧
        σ7.log = Event.alloc p 4 :: Event.free p :: σ5.log :=
  four_page_scenario xv6 (fun _ => 0) 0x80400000 0x80404000 (by decide)
    (by unfold ValidRange; decide) (by decide)

/-! ## Scrubbing and frame conditions of single calls -/

/-- C16: for every `v` that passes the check, `kfree(v)` first sets all
`PGSIZE` (4096) bytes of the page at `v` to 1 and then stores the link; when
it returns, every byte of the page after its first machine word (four bytes)
is 1, the first word holds the previous head of the free list, and no byte
outside the page has changed. -/
theorem page_scrubbing (cfg : Layout) (v : Nat) (s : State)
    (hv : ¬ kfree_guard cfg v) :
    ∃ s1, kfree cfg v s = Result.ok s1 ∧
      (∀ x, v ≤ x → x < v + PGSIZE → memset s.mem v 1 PGSIZE x = 1) ∧
      s1.mem = storeWord (memset s.mem v 1 PGSIZE) v s.kmem.freelist ∧
      (∀ x, v + 4 ≤ x → x < v + PGSIZE → s1.mem x = 1) ∧
      loadWord s1.mem v = s.kmem.freelist % WORD ∧
      (s.kmem.freelist < WORD → loadWord s1.mem v = s.kmem.freelist) ∧
      (∀ x, x < v ∨ v + PGSIZE ≤ x → s1.mem x = s.mem x) := by
  obtain ⟨s1, h1, _, _, _, hm, _⟩ := kfree_ok cfg v s hv
  have hl : loadWord s1.mem v = s.kmem.freelist % WORD := by
    rw [hm, loadWord_storeWord]
  refine ⟨s1, h1, ?_, hm, ?_, hl, ?_, ?_⟩
  · intro x h2 h3
    simp only [memset, if_pos (And.intro h2 h3)]
  · intro x h2 h3
    have hn : ¬ (v ≤ x ∧ x < v + 4) := by omega
    have hp : v ≤ x ∧ x < v + PGSIZE := ⟨by omega, h3⟩
    rw [hm]
    simp only [storeWord, if_neg hn, memset, if_pos hp]
  · intro hh
    rw [hl, Nat.mod_eq_of_lt hh]
  · intro x hx
    have hn : ¬ (v ≤ x ∧ x < v + 4) := by
      simp only [PGSIZE] at hx
      omega
    have hp : ¬ (v ≤ x ∧ x < v + PGSIZE) := by omega
    rw [hm]
    simp only [storeWord, if_neg hn, memset, if_neg hp]

/-- Witness for `page_scrubbing`: the page `0x80400000` of stock xv6 released
in a state whose free list is headed by `0x80401000`. -/
theorem page_scrubbing_witness :
    ∃ s1, kfree xv6 0x80400000 ⟨fun _ => ⟨0, 0⟩, 0, ⟨0, 0x80401000⟩, fun _ => 0⟩
        = Result.ok s1 ∧
      (∀ x, 0x80400000 ≤ x → x < 0x80400000 + PGSIZE →
        memset (fun _ => 0) 0x80400000 1 PGSIZE x = 1) ∧
      s1.mem = storeWord (memset (fun _ => 0) 0x80400000 1 PGSIZE) 0x80400000 0x80401000 ∧
      (∀ x, 0x80400000 + 4 ≤ x → x < 0x80400000 + PGSIZE → s1.mem x = 1) ∧
      loadWord s1.mem 0x80400000 = 0x80401000 % WORD ∧
      (0x80401000 < WORD → loadWord s1.mem 0x80400000 = 0x80401000) ∧
      (∀ x, x < 0x80400000 ∨ 0x80400000 + PGSIZE ≤ x → s1.mem x = 0) :=
  page_scrubbing xv6 0x80400000 ⟨fun _ => ⟨0, 0⟩, 0, ⟨0, 0x80401000⟩, fun _ => 0⟩
    (by decide)

/-- C18: a `kfree(v)` that does not panic changes no `core_map` entry other
than the one at index `V2P(v) >> PGSHIFT` and changes neither `fifo_clock`
nor `use_lock`; a successful `kalloc` returning `r` changes no `core_map`
entry other than the one at index `V2P(r) >> PGSHIFT`, writes no page
memory, and removes exactly the head of the free list, the rest of the list
staying as it was, in the same order. -/
theorem frame_condition (cfg : Layout) (s : State) :
    (∀ v, ¬ kfree_guard cfg v → ∃ s1, kfree cfg v s = Result.ok s1 ∧
        (∀ i, i ≠ V2P cfg v >>> PGSHIFT → s1.core_map i = s.core_map i) ∧
        s1.fifo_clock = s.fifo_clock ∧ s1.kmem.use_lock = s.kmem.use_lock) ∧
    (s.kmem.freelist ≠ 0 →
        (∀ i, i ≠ V2P cfg (kalloc cfg s).1 >>> PGSHIFT →
          (kalloc cfg s).2.core_map i = s.core_map i) ∧
        (kalloc cfg s).2.mem = s.mem ∧
        (kalloc cfg s).2.kmem.use_lock = s.kmem.use_lock ∧
        ∀ p ps, isFreeList s.mem s.kmem.freelist (p :: ps) →
          (kalloc cfg s).1 = p ∧
          isFreeList (kalloc cfg s).2.mem (kalloc cfg s).2.kmem.freelist ps) := by
  constructor
  · intro v hv
    obtain ⟨s1, h1, _, hu, hc, _, hcm⟩ := kfree_ok cfg v s hv
    refine ⟨s1, h1, ?_, hc, hu⟩
    intro i hi
    rw [hcm]
    simp only [setEntry, if_neg hi]
  · intro h
    obtain ⟨k1, k2, k3, _, k5, k6⟩ := kalloc_ok cfg s h
    refine ⟨?_, k5, k3, ?_⟩
    · intro i hi
      rw [k1] at hi
      rw [k6]
      simp only [setEntry, if_neg hi]
    · intro p ps hl
      obtain ⟨e1, _, e3⟩ := hl
      refine ⟨by rw [k1, e1], ?_⟩
      show isFreeSeg (kalloc cfg s).2.mem (kalloc cfg s).2.kmem.freelist ps 0
      rw [k5, k2, e1]
      exact e3

/-- Witness for `frame_condition`: a release in the boot state of stock xv6
and an allocation from a free list of two pages. -/
theorem frame_condition_witness :
    (∃ s1, kfree xv6 0x80400000 (State.initial fun _ => 0) = Result.ok s1 ∧
        (∀ i, i ≠ V2P xv6 0x80400000 >>> PGSHIFT →
          s1.core_map i = (State.initial fun _ => 0).core_map i) ∧
        s1.fifo_clock = (State.initial fun _ => 0).fifo_clock ∧
        s1.kmem.use_lock = (State.initial fun _ => 0).kmem.use_lock) ∧
    ∃ s, kinit1 xv6 0x80400000 0x80402000 (State.initial fun _ => 0) = Result.ok s ∧
      (kalloc xv6 s).1 = 0x80401000 ∧
      isFreeList (kalloc xv6 s).2.mem (kalloc xv6 s).2.kmem.freelist [0x80400000] :=
  ⟨(frame_condition xv6 (State.initial fun _ => 0)).1 0x80400000 (by decide),
   ⟨_, rfl,
    ((frame_condition xv6 _).2 (by decide)).2.2.2 0x80401000 [0x80400000]
      (by simp only [isFreeList, isFreeSeg]; decide)⟩⟩

/-! ## Double free -/

/-- C19: the outcome of `kfree` does not depend on `core_map` (it never reads
`is_allocated`); and in stock xv6, after `kinit1` over the single page
`v = 0x80400000`, that page is on the free list and passes the check,
`kfree(v)` does not panic, and after `kfree(v); kfree(v)` the next two calls
of `kalloc` both return `v`: two live pages with one address, whose
`core_map` entry has `is_allocated = 1`. -/
theorem double_free_undetected :
    (∀ (cfg : Layout) (v : Nat) (s : State) (cm : Nat → core_map_entry),
      ((∃ s1, kfree cfg v s = Result.ok s1) ↔
        (∃ s1, kfree cfg v { s with core_map := cm } = Result.ok s1)) ∧
      ∀ s1 s2, kfree cfg v s = Result.ok s1 →
        kfree cfg v { s with core_map := cm } = Result.ok s2 →
        s2.mem = s1.mem ∧ s2.kmem = s1.kmem ∧ s2.fifo_clock = s1.fifo_clock) ∧
    ∃ σ1 σ5,
      run xv6 (Sys.initial fun _ => 0) [Call.kinit1 0x80400000 0x80401000]
        = Result.ok σ1 ∧
      walk σ1.st.mem 4 σ1.st.kmem.freelist = [0x80400000] ∧
      ¬ kfree_guard xv6 0x80400000 ∧
      (∃ s, kfree xv6 0x80400000 σ1.st = Result.ok s) ∧
      run xv6 σ1 [Call.kfree 0x80400000, Call.kfree 0x80400000, Call.kalloc, Call.kalloc]
        = Result.ok σ5 ∧
      σ5.log = [Event.alloc 0x80400000 1, Event.alloc 0x80400000 0,
        Event.free 0x80400000, Event.free 0x80400000,
        Event.init 0x80400000 0x80401000] ∧
      live σ5.log = [0x80400000, 0x80400000] ∧
      (σ5.st.core_map (V2P xv6 0x80400000 >>> PGSHIFT)).is_allocated = 1 := by
  constructor
  · intro cfg v s cm
    by_cases hg : kfree_guard cfg v
    · constructor
      · constructor <;> rintro ⟨s1, h⟩ <;> simp [kfree, hg] at h
      · intro s1 s2 h
        simp [kfree, hg] at h
    · obtain ⟨a1, h1, f1, u1, c1, m1, _⟩ := kfree_ok cfg v s hg
      obtain ⟨a2, h2, f2, u2, c2, m2, _⟩ := kfree_ok cfg v { s with core_map := cm } hg
      refine ⟨⟨fun _ => ⟨a2, h2⟩, fun _ => ⟨a1, h1⟩⟩, ?_⟩
      intro s1 s2 e1 e2
      rw [h1] at e1
      rw [h2] at e2
      cases e1
      cases e2
      refine ⟨by rw [m1, m2], ?_, by rw [c1, c2]⟩
      cases hk1 : a1.kmem
      cases hk2 : a2.kmem
      rw [hk1] at f1 u1
      rw [hk2] at f2 u2
      simp only at f1 u1 f2 u2
      rw [f1, u1, f2, u2]
  · exact ⟨_, _, rfl, by decide, by decide, ⟨_, rfl⟩, rfl, rfl, by decide, by decide⟩

/-! ## The locking mode -/

theorem kfree_final_use_lock (cfg : Layout) (v : Nat) (s s1 : State)
    (h : (kfree cfg v s).final = some s1) : s1.kmem.use_lock = s.kmem.use_lock := by
  by_cases hg : kfree_guard cfg v
  · simp only [kfree, if_pos hg, Result.final] at h
    cases h
    rfl
  · obtain ⟨s2, h1, _, hu, _⟩ := kfree_ok cfg v s hg
    rw [h1] at h
    simp only [Result.final] at h
    cases h
    exact hu

theorem freerange_loop_final_use_lock (cfg : Layout) (vend fuel : Nat) :
    ∀ (p : Nat) (s s1 : State), (freerange_loop cfg vend fuel p s).final = some s1 →
      s1.kmem.use_lock = s.kmem.use_lock := by
  induction fuel with
  | zero =>
    intro p s s1 h
    simp [freerange_loop, Result.final] at h
  | succ f ih =>
    intro p s s1 h
    rw [freerange_loop] at h
    split at h
    · cases hk : kfree cfg p s with
      | ok s2 =>
        rw [hk] at h
        have h2 := ih _ s2 s1 h
        have h3 := kfree_final_use_lock cfg p s s2 (by rw [hk]; rfl)
        rw [h2, h3]
      | panic s2 =>
        have h3 := kfree_final_use_lock cfg p s s2 (by rw [hk]; rfl)
        rw [hk] at h
        simp only [Result.final] at h
        cases h
        exact h3
      | nofuel =>
        rw [hk] at h
        simp [Result.final] at h
    · simp only [Result.final] at h
      cases h
      rfl

theorem freerange_final_use_lock (cfg : Layout) (a b : Nat) (s s1 : State)
    (h : (freerange cfg a b s).final = some s1) :
    s1.kmem.use_lock = s.kmem.use_lock := by
  unfold freerange at h
  exact freerange_loop_final_use_lock cfg b FUEL _ s s1 h

theorem kinit1_final_use_lock (cfg : Layout) (a b : Nat) (s s1 : State)
    (h : (kinit1 cfg a b s).final = some s1) : s1.kmem.use_lock = 0 := by
  unfold kinit1 at h
  have h1 := freerange_final_use_lock cfg a b _ s1 h
  exact h1

theorem kinit2_ok_use_lock (cfg : Layout) (a b : Nat) (s s1 : State)
    (h : kinit2 cfg a b s = Result.ok s1) : s1.kmem.use_lock = 1 := by
  unfold kinit2 at h
  cases hk : freerange cfg a b s with
  | ok s2 =>
    rw [hk] at h
    cases h
    rfl
  | panic s2 =>
    rw [hk] at h
    cases h
  | nofuel =>
    rw [hk] at h
    cases h

theorem kalloc_use_lock (cfg : Layout) (s : State) :
    (kalloc cfg s).2.kmem.use_lock = s.kmem.use_lock := by
  by_cases h0 : s.kmem.freelist = 0
  · rw [kalloc_empty cfg s h0]
  · exact (kalloc_ok cfg s h0).2.2.1

theorem step_use_lock (cfg : Layout) (σ σ1 : Sys) (c : Call)
    (hc : ∀ a b, c ≠ Call.kinit1 a b) (h1 : σ.st.kmem.use_lock = 1)
    (h : step cfg σ c = Result.ok σ1) : σ1.st.kmem.use_lock = 1 := by
  cases c with
  | kinit1 a b => exact absurd rfl (hc a b)
  | kinit2 a b =>
    rw [step_kinit2_eq] at h
    exact kinit2_ok_use_lock cfg a b σ.st σ1.st (record_ok σ σ1 _ _ h).1
  | freerange a b =>
    rw [step_freerange_eq] at h
    obtain ⟨e, _⟩ := record_ok σ σ1 _ _ h
    rw [freerange_final_use_lock cfg a b σ.st σ1.st (by rw [e]; rfl), h1]
  | kfree v =>
    rw [step_kfree_eq] at h
    obtain ⟨e, _⟩ := record_ok σ σ1 _ _ h
    rw [kfree_final_use_lock cfg v σ.st σ1.st (by rw [e]; rfl), h1]
  | kalloc =>
    by_cases h0 : σ.st.kmem.freelist = 0
    · rw [step_kalloc_empty cfg σ h0] at h
      cases h
      exact h1
    · rw [step_kalloc_ok cfg σ h0] at h
      cases h
      show (kalloc cfg σ.st).2.kmem.use_lock = 1
      rw [kalloc_use_lock, h1]

/-- C14 (amended): when `kinit1` ends (returning or panicking) `use_lock` is
0, and when `kinit2` returns it is 1; `kfree`, `freerange` and `kalloc` never
change it; so in a call sequence that does not call `kinit1`, once
`use_lock` is 1 it is 1 after every further call. The transition to 1 is
made by `kinit2` only, and the transition back to 0 by `kinit1` only. -/
theorem use_lock_transitions (cfg : Layout) :
    (∀ a b s s1, (kinit1 cfg a b s).final = some s1 → s1.kmem.use_lock = 0) ∧
    (∀ a b s s1, kinit2 cfg a b s = Result.ok s1 → s1.kmem.use_lock = 1) ∧
    (∀ v s s1, (kfree cfg v s).final = some s1 → s1.kmem.use_lock = s.kmem.use_lock) ∧
    (∀ a b s s1, (freerange cfg a b s).final = some s1 →
      s1.kmem.use_lock = s.kmem.use_lock) ∧
    (∀ s, (kalloc cfg s).2.kmem.use_lock = s.kmem.use_lock) ∧
    (∀ cs σ σ1, (∀ c ∈ cs, ∀ a b, c ≠ Call.kinit1 a b) → σ.st.kmem.use_lock = 1 →
      run cfg σ cs = Result.ok σ1 → σ1.st.kmem.use_lock = 1) := by
  refine ⟨kinit1_final_use_lock cfg, kinit2_ok_use_lock cfg, kfree_final_use_lock cfg,
    freerange_final_use_lock cfg, kalloc_use_lock cfg, ?_⟩
  intro cs
  induction cs with
  | nil =>
    intro σ σ1 _ h1 h
    simp only [run] at h
    cases h
    exact h1
  | cons c cs ih =>
    intro σ σ1 hc h1 h
    cases hs : step cfg σ c with
    | ok σ2 =>
      rw [run_cons_ok cfg σ σ2 c cs hs] at h
      exact ih σ2 σ1 (fun c1 hc1 => hc c1 (List.mem_cons_of_mem _ hc1))
        (step_use_lock cfg σ σ2 c (hc c (List.mem_cons_self _ _)) h1 hs) h
    | panic s1 => simp [run, hs] at h
    | nofuel => simp [run, hs] at h

/-- Witness for `use_lock_transitions`: `kinit1` at boot of stock xv6, and a
sequence without `kinit1` run from a state in which `use_lock` is 1. -/
theorem use_lock_transitions_witness :
    (∃ s1, (kinit1 xv6 0x80400000 0x80402000 (State.initial fun _ => 0)).final = some s1 ∧
      s1.kmem.use_lock = 0) ∧
    ∃ σ1, run xv6 ⟨⟨fun _ => ⟨0, 0⟩, 0, ⟨1, 0⟩, fun _ => 0⟩, []⟩
        [Call.kinit2 0x80400000 0x80402000, Call.kalloc, Call.kfree 0x80401000,
          Call.freerange 0x80900000 0x80901000, Call.kalloc] = Result.ok σ1 ∧
      σ1.st.kmem.use_lock = 1 :=
  ⟨⟨_, rfl, (use_lock_transitions xv6).1 0x80400000 0x80402000 _ _ rfl⟩,
   ⟨_, rfl,
    (use_lock_transitions xv6).2.2.2.2.2
      [Call.kinit2 0x80400000 0x80402000, Call.kalloc, Call.kfree 0x80401000,
        Call.freerange 0x80900000 0x80901000, Call.kalloc]
      ⟨⟨fun _ => ⟨0, 0⟩, 0, ⟨1, 0⟩, fun _ => 0⟩, []⟩ _ (by simp) rfl rfl⟩⟩

/-- C14 (counterexample): in stock xv6, after `kinit2` over the page
`0x80400000` the flag `use_lock` is 1, and a following `kinit1` over the
page `0x80800000` (a valid range disjoint from the first) sets it back
to 0. -/
theorem use_lock_reset_by_kinit1 :
    ∃ σ1 σ2,
      run xv6 (Sys.initial fun _ => 0) [Call.kinit2 0x80400000 0x80401000]
        = Result.ok σ1 ∧
      σ1.st.kmem.use_lock = 1 ∧
      Respects xv6 (Sys.initial fun _ => 0)
        [Call.kinit2 0x80400000 0x80401000, Call.kinit1 0x80800000 0x80801000] ∧
      run xv6 σ1 [Call.kinit1 0x80800000 0x80801000] = Result.ok σ2 ∧
      σ2.st.kmem.use_lock = 0 :=
  ⟨_, _, rfl, rfl, by decide, rfl, rfl⟩

/-! ## The critical sections -/

theorem kfree_ops_refines (cfg : Layout) (v : Nat) (s : State)
    (hv : ¬ kfree_guard cfg v) :
    kfree cfg v s = Result.ok (ops_run (kfree_ops cfg v s) s) := by
  unfold kfree
  rw [if_neg hv]
  by_cases hu : s.kmem.use_lock ≠ 0
  · simp only [kfree_ops, if_pos hu, List.cons_append, List.nil_append, ops_run, Op.apply]
  · simp only [kfree_ops, if_neg hu, List.cons_append, List.nil_append, List.append_nil,
      ops_run, Op.apply]

theorem kalloc_ops_refines (cfg : Layout) (s : State) :
    kalloc cfg s = (s.kmem.freelist, ops_run (kalloc_ops cfg s) s) := by
  unfold kalloc
  by_cases h0 : s.kmem.freelist ≠ 0
  · rw [if_pos h0]
    by_cases hu : s.kmem.use_lock ≠ 0
    · simp only [kalloc_ops, if_pos hu, if_pos h0, List.cons_append, List.nil_append,
        ops_run, Op.apply]
    · simp only [kalloc_ops, if_neg hu, if_pos h0, List.cons_append, List.nil_append,
        List.append_nil, ops_run, Op.apply]
  · rw [if_neg h0]
    by_cases hu : s.kmem.use_lock ≠ 0
    · simp only [kalloc_ops, if_pos hu, if_neg h0, List.cons_append, List.nil_append,
        ops_run, Op.apply]
    · simp only [kalloc_ops, if_neg hu, if_neg h0, List.nil_append, ops_run]

theorem kalloc_in_critical_section (cfg : Layout) (s : State)
    (hu : s.kmem.use_lock ≠ 0) :
    in_critical_section false (kalloc_ops cfg s) = true ∧
      (kalloc_ops cfg s).count Op.acquire = 1 := by
  by_cases h0 : s.kmem.freelist ≠ 0
  · simp [kalloc_ops, hu, h0, in_critical_section, Op.shared]
  · simp [kalloc_ops, hu, h0, in_critical_section]

theorem kfree_not_in_critical_section (cfg : Layout) (v : Nat) (s : State) :
    in_critical_section false (kfree_ops cfg v s) = false := by
  simp [kfree_ops, in_critical_section, Op.shared]

/-- C15 (the code at the failing input): in stock xv6, after `kinit2` over the
page `0x80400000` and one `kalloc`, locking is on (`use_lock = 1`).
`kfree(0x80400000)` then executes, in this order: the two `core_map`
assignments, `memset`, `acquire`, the two free-list assignments, `release`;
so the `core_map` update is made before the lock is taken, outside the
critical section that holds the free-list push. The following `kalloc`
executes all its free-list and `core_map` assignments between `acquire` and
`release`. -/
theorem kfree_updates_core_map_outside_lock :
    ∃ σ,
      run xv6 (Sys.initial fun _ => 0) [Call.kinit2 0x80400000 0x80401000, Call.kalloc]
        = Result.ok σ ∧
      σ.st.kmem.use_lock = 1 ∧
      kfree xv6 0x80400000 σ.st =
        Result.ok (ops_run (kfree_ops xv6 0x80400000 σ.st) σ.st) ∧
      kfree_ops xv6 0x80400000 σ.st =
        [Op.set_is_allocated 1024 0, Op.set_birth_time 1024 0,
         Op.fill 0x80400000 1 4096, Op.acquire,
         Op.set_next 0x80400000 0, Op.set_freelist 0x80400000, Op.release] ∧
      in_critical_section false (kfree_ops xv6 0x80400000 σ.st) = false ∧
      kalloc_ops xv6 (ops_run (kfree_ops xv6 0x80400000 σ.st) σ.st) =
        [Op.acquire, Op.set_freelist 0, Op.set_is_allocated 1024 1,
         Op.set_birth_time 1024 1, Op.tick, Op.release] ∧
      in_critical_section false
        (kalloc_ops xv6 (ops_run (kfree_ops xv6 0x80400000 σ.st) σ.st)) = true := by
  refine ⟨_, rfl, rfl, kfree_ops_refines xv6 0x80400000 _ (by decide), by decide,
    by decide, by decide, by decide⟩

/-! ## The metadata invariant -/

theorem isFreeSeg_unique (mem : Nat → Nat) (l : List Nat) :
    ∀ (h : Nat) (l1 : List Nat), isFreeSeg mem h l 0 → isFreeSeg mem h l1 0 → l = l1 := by
  induction l with
  | nil =>
    intro h l1 h1 h2
    cases l1 with
    | nil => rfl
    | cons q qs =>
      have e1 : h = 0 := h1
      obtain ⟨e2, e3, _⟩ := h2
      exact absurd (e2 ▸ e1) e3
  | cons p ps ih =>
    intro h l1 h1 h2
    obtain ⟨a1, a2, a3⟩ := h1
    cases l1 with
    | nil =>
      have e1 : h = 0 := h2
      exact absurd (a1 ▸ e1) a2
    | cons q qs =>
      obtain ⟨b1, _, b3⟩ := h2
      have hpq : p = q := by rw [← a1, ← b1]
      subst hpq
      rw [ih _ qs a3 b3]

theorem frame_injective (cfg : Layout) (p q : Nat) (hp : p % PGSIZE = 0)
    (hq : q % PGSIZE = 0) (hpw : p < WORD) (hqw : q < WORD)
    (h : V2P cfg p >>> PGSHIFT = V2P cfg q >>> PGSHIFT) : p = q := by
  simp only [V2P, PGSHIFT, Nat.shiftRight_eq_div_pow] at h
  have hk : cfg.KERNBASE % WORD < WORD := Nat.mod_lt _ (by decide)
  simp only [WORD, PGSIZE] at *
  omega

theorem Meta_congr (cfg : Layout) (s s1 : State) (log : List Event)
    (hm : s1.mem = s.mem) (hf : s1.kmem.freelist = s.kmem.freelist)
    (hc : s1.core_map = s.core_map) (h : Meta cfg ⟨s, log⟩) : Meta cfg ⟨s1, log⟩ := by
  obtain ⟨h1, h2, h3⟩ := h
  refine ⟨?_, ?_, ?_⟩
  · intro l hl p hp
    show s1.core_map _ = _
    rw [hc]
    exact h1 l (by simpa only [hm, hf] using hl) p hp
  · intro i
    show (s1.core_map i).is_allocated = 1 ↔ _
    rw [hc]
    exact h2 i
  · intro i
    show (s1.core_map i).is_allocated = 0 ∨ (s1.core_map i).is_allocated = 1
    rw [hc]
    exact h3 i

theorem Meta_initial (cfg : Layout) (mem : Nat → Nat) : Meta cfg (Sys.initial mem) := by
  refine ⟨fun _ _ _ _ => rfl, fun i => ?_, fun i => Or.inl rfl⟩
  simp [Sys.initial, State.initial, live]

theorem Inv_good (cfg : Layout) (σ : Sys) (l : List Nat)
    (h4 : ∀ p ∈ l ++ live σ.log, ¬ kfree_guard cfg p ∧ p < WORD ∧
      ∃ r ∈ regions σ.log, r.1 ≤ p ∧ p + PGSIZE ≤ r.2) :
    ∀ p ∈ l ++ live σ.log, p % PGSIZE = 0 ∧ p < WORD := by
  intro p hp
  obtain ⟨g1, g2, _⟩ := h4 p hp
  exact ⟨(guard_aligned cfg p g1).1, g2⟩

theorem kalloc_meta (cfg : Layout) (σ σ1 : Sys) (hI : Inv cfg σ) (hM : Meta cfg σ)
    (h : step cfg σ Call.kalloc = Result.ok σ1) : Meta cfg σ1 := by
  obtain ⟨l, h1, h2, h3, h4⟩ := hI
  obtain ⟨m1, m2, m3⟩ := hM
  have hgood := Inv_good cfg σ l h4
  by_cases h0 : σ.st.kmem.freelist = 0
  · rw [step_kalloc_empty cfg σ h0] at h
    cases h
    exact ⟨m1, by simpa [live] using m2, m3⟩
  · rw [step_kalloc_ok cfg σ h0] at h
    cases h
    obtain ⟨_, k2, _, _, k5, k6⟩ := kalloc_ok cfg σ.st h0
    cases l with
    | nil => exact absurd h1 h0
    | cons p ps =>
      obtain ⟨e1, e2, e3⟩ := h1
      have hnd : (p :: (ps ++ live σ.log)).Nodup := by simpa using h2
      have hp := hgood p (by simp)
      refine ⟨?_, ?_, ?_⟩
      · intro l1 hl1 q hq
        have hl1' : isFreeSeg σ.st.mem (loadWord σ.st.mem p) l1 0 := by
          have : isFreeSeg (kalloc cfg σ.st).2.mem (kalloc cfg σ.st).2.kmem.freelist l1 0 :=
            hl1
          rwa [k5, k2, e1] at this
        have hl : ps = l1 := isFreeSeg_unique σ.st.mem ps _ l1 e3 hl1'
        subst hl
        have hqg := hgood q (by simp [hq])
        have hne : V2P cfg q >>> PGSHIFT ≠ V2P cfg p >>> PGSHIFT := by
          intro e
          have := frame_injective cfg q p hqg.1 hp.1 hqg.2 hp.2 e
          subst this
          exact (List.nodup_cons.1 hnd).1 (List.mem_append_left _ hq)
        show (kalloc cfg σ.st).2.core_map _ = _
        rw [k6, e1]
        simp only [setEntry, if_neg hne]
        exact m1 (p :: ps) ⟨e1, e2, e3⟩ q (List.mem_cons_of_mem _ hq)
      · intro i
        show ((kalloc cfg σ.st).2.core_map i).is_allocated = 1 ↔
          ∃ q ∈ live (Event.alloc σ.st.kmem.freelist σ.st.fifo_clock :: σ.log), _
        rw [k6]
        simp only [live, setEntry, List.mem_cons]
        by_cases hi : i = V2P cfg σ.st.kmem.freelist >>> PGSHIFT
        · rw [if_pos hi]
          exact ⟨fun _ => ⟨_, Or.inl rfl, hi.symm⟩, fun _ => rfl⟩
        · rw [if_neg hi, m2 i]
          constructor
          · rintro ⟨q, hq, e⟩
            exact ⟨q, Or.inr hq, e⟩
          · rintro ⟨q, hq | hq, e⟩
            · exact absurd (by rw [← e, hq]) hi
            · exact ⟨q, hq, e⟩
      · intro i
        show ((kalloc cfg σ.st).2.core_map i).is_allocated = 0 ∨
          ((kalloc cfg σ.st).2.core_map i).is_allocated = 1
        rw [k6]
        simp only [setEntry]
        split
        · exact Or.inr rfl
        · exact m3 i

theorem kfree_meta (cfg : Layout) (hend : 0 < cfg.end_) (σ σ1 : Sys) (v : Nat)
    (hI : Inv cfg σ) (hM : Meta cfg σ) (hv : v ∈ live σ.log)
    (h : step cfg σ (Call.kfree v) = Result.ok σ1) : Meta cfg σ1 := by
  obtain ⟨l, h1, h2, h3, h4⟩ := hI
  obtain ⟨m1, m2, m3⟩ := hM
  have hgood := Inv_good cfg σ l h4
  obtain ⟨g1, g2, _⟩ := h4 v (List.mem_append_right _ hv)
  have hv0 : v ≠ 0 := by
    have := (guard_aligned cfg v g1).2.1
    omega
  obtain ⟨n1, n2, n3⟩ := List.nodup_append.1 h2
  have hnot : v ∉ l := fun hm => n3 hm hv
  obtain ⟨s1, k1, k2, _⟩ := kfree_push cfg v σ.st l 0 g1 hv0 h3 h1 hnot
    (fun q hq => (hgood q (List.mem_append_left _ hq)).1)
  obtain ⟨s2, f1, _, _, _, _, fc⟩ := kfree_ok cfg v σ.st g1
  rw [k1] at f1
  cases f1
  rw [step_kfree_ok cfg σ v s1 k1] at h
  cases h
  refine ⟨?_, ?_, ?_⟩
  · intro l1 hl1 q hq
    have hl : v :: l = l1 := isFreeSeg_unique s1.mem (v :: l) _ l1 k2 hl1
    subst hl
    show s1.core_map _ = _
    rw [fc]
    simp only [setEntry]
    split
    · rfl
    · rcases List.mem_cons.1 hq with e | hq
      · subst e
        simp_all
      · exact m1 l h1 q hq
  · intro i
    show (s1.core_map i).is_allocated = 1 ↔ ∃ q ∈ (live σ.log).erase v, _
    rw [fc]
    simp only [setEntry]
    by_cases hi : i = V2P cfg v >>> PGSHIFT
    · rw [if_pos hi]
      constructor
      · intro h01
        exact absurd h01 (by decide)
      · rintro ⟨q, hq, e⟩
        exfalso
        obtain ⟨hne, hql⟩ := (List.Nodup.mem_erase_iff n2).1 hq
        have hqg := hgood q (List.mem_append_right _ hql)
        have hvg := hgood v (List.mem_append_right _ hv)
        exact hne (frame_injective cfg q v hqg.1 hvg.1 hqg.2 hvg.2 (by rw [e, hi]))
    · rw [if_neg hi, m2 i]
      constructor
      · rintro ⟨q, hq, e⟩
        have hne : q ≠ v := fun e1 => hi (by rw [← e, e1])
        exact ⟨q, (List.mem_erase_of_ne hne).2 hq, e⟩
      · rintro ⟨q, hq, e⟩
        exact ⟨q, List.mem_of_mem_erase hq, e⟩
  · intro i
    show (s1.core_map i).is_allocated = 0 ∨ (s1.core_map i).is_allocated = 1
    rw [fc]
    simp only [setEntry]
    split
    · exact Or.inl rfl
    · exact m3 i

theorem init_meta (cfg : Layout) (hend : 0 < cfg.end_) (s s1 : State) (log : List Event)
    (a b : Nat) (hI : Inv cfg ⟨s, log⟩) (hM : Meta cfg ⟨s, log⟩)
    (hV : ValidRange cfg a b) (hD : ∀ r ∈ regions log, b ≤ r.1 ∨ r.2 ≤ a)
    (h : freerange cfg a b s = Result.ok s1) : Meta cfg ⟨s1, Event.init a b :: log⟩ := by
  obtain ⟨l, h1, h2, h3, h4⟩ := hI
  obtain ⟨m1, m2, m3⟩ := hM
  have hgood := Inv_good cfg ⟨s, log⟩ l h4
  obtain ⟨v1, v2, v3⟩ := hV
  obtain ⟨b1, b2, b3⟩ := PGROUNDUP_bounds a (by simp only [PGSIZE] at *; omega)
  have hpg : ∀ p ∈ pagesOf a b, p % PGSIZE = 0 ∧ a ≤ p ∧ p + PGSIZE ≤ b := by
    intro p hp
    obtain ⟨c1, c2, c3⟩ := (mem_pagesOf p a b b3).1 hp
    exact ⟨c1, by omega, c3⟩
  have hdis : ∀ p ∈ pagesOf a b, p ∉ l ++ live log := by
    intro p hp hmem
    obtain ⟨_, _, r, hr, r1, r2⟩ := h4 p hmem
    obtain ⟨_, c2, c3⟩ := hpg p hp
    have := hD r hr
    simp only [PGSIZE] at *
    omega
  obtain ⟨s2, k1, k2, _⟩ := kfree_each_push cfg 0 (pagesOf a b) s l
    (by
      intro p hp
      obtain ⟨_, c2, c3⟩ := hpg p hp
      have hg := v3 p hp
      have := (guard_aligned cfg p hg).2.1
      exact ⟨hg, by omega, by omega⟩)
    (pagesFrom_nodup _ _) h3 h1
    (fun p hp hmem => hdis p hp (List.mem_append_left _ hmem))
    (fun q hq => (hgood q (List.mem_append_left _ hq)).1)
  rw [freerange_eq cfg a b s v1 v2, k1] at h
  cases h
  obtain ⟨_, _, f3, f4, f5⟩ := kfree_each_frame cfg (pagesOf a b) s s1 k1
  have hfresh : ∀ q ∈ live log, ∀ p ∈ pagesOf a b,
      V2P cfg p >>> PGSHIFT ≠ V2P cfg q >>> PGSHIFT := by
    intro q hq p hp e
    have hqg := hgood q (List.mem_append_right _ hq)
    obtain ⟨c1, _, c3⟩ := hpg p hp
    have hpw : p < WORD := by omega
    have := frame_injective cfg p q c1 hqg.1 hpw hqg.2 e
    subst this
    exact hdis p hp (List.mem_append_right _ hq)
  refine ⟨?_, ?_, ?_⟩
  · intro l1 hl1 q hq
    have hl : (pagesOf a b).reverse ++ l = l1 :=
      isFreeSeg_unique s1.mem _ _ l1 k2 hl1
    subst hl
    rcases List.mem_append.1 hq with hq | hq
    · exact f4 q (List.mem_reverse.1 hq)
    · exact f3 _ (m1 l h1 q hq)
  · intro i
    show (s1.core_map i).is_allocated = 1 ↔ ∃ q ∈ live log, _
    constructor
    · intro hi
      by_cases hex : ∃ p ∈ pagesOf a b, V2P cfg p >>> PGSHIFT = i
      · obtain ⟨p, hp, e⟩ := hex
        rw [← e, f4 p hp] at hi
        exact absurd hi (by decide)
      · have hun : s1.core_map i = s.core_map i :=
          f5 i (fun p hp e => hex ⟨p, hp, e⟩)
        rw [hun] at hi
        exact (m2 i).1 hi
    · rintro ⟨q, hq, e⟩
      have hun : s1.core_map i = s.core_map i :=
        f5 i (fun p hp e1 => hfresh q hq p hp (by rw [e1, e]))
      rw [hun]
      exact (m2 i).2 ⟨q, hq, e⟩
  · intro i
    show (s1.core_map i).is_allocated = 0 ∨ (s1.core_map i).is_allocated = 1
    by_cases hex : ∃ p ∈ pagesOf a b, V2P cfg p >>> PGSHIFT = i
    · obtain ⟨p, hp, e⟩ := hex
      rw [← e, f4 p hp]
      exact Or.inl rfl
    · rw [f5 i (fun p hp e => hex ⟨p, hp, e⟩)]
      exact m3 i

theorem Meta_step (cfg : Layout) (hend : 0 < cfg.end_) (σ σ1 : Sys) (c : Call)
    (hI : Inv cfg σ) (hM : Meta cfg σ) (hA : Allowed cfg σ c)
    (h : step cfg σ c = Result.ok σ1) : Meta cfg σ1 := by
  cases c with
  | kinit1 a b =>
    rw [step_kinit1_eq] at h
    obtain ⟨e1, e2⟩ := record_ok σ σ1 _ _ h
    unfold kinit1 at e1
    have hI0 : Inv cfg ⟨{ σ.st with kmem := { σ.st.kmem with use_lock := 0 } }, σ.log⟩ :=
      Inv_congr cfg σ.st _ σ.log rfl rfl hI
    have hM0 : Meta cfg ⟨{ σ.st with kmem := { σ.st.kmem with use_lock := 0 } }, σ.log⟩ :=
      Meta_congr cfg σ.st _ σ.log rfl rfl rfl hM
    have hm := init_meta cfg hend _ σ1.st σ.log a b hI0 hM0 hA.1 hA.2 e1
    have hσ : σ1 = ⟨σ1.st, Event.init a b :: σ.log⟩ := by
      cases σ1
      simp only at e2
      rw [e2]
    rw [hσ]
    exact hm
  | kinit2 a b =>
    rw [step_kinit2_eq] at h
    obtain ⟨e1, e2⟩ := record_ok σ σ1 _ _ h
    unfold kinit2 at e1
    cases hk : freerange cfg a b σ.st with
    | ok s2 =>
      rw [hk] at e1
      have hm := init_meta cfg hend σ.st s2 σ.log a b hI hM hA.1 hA.2 hk
      have hσ : σ1 = ⟨σ1.st, Event.init a b :: σ.log⟩ := by
        cases σ1
        simp only at e2
        rw [e2]
      rw [hσ]
      injection e1 with e3
      exact Meta_congr cfg s2 σ1.st _ (by rw [← e3]) (by rw [← e3]) (by rw [← e3]) hm
    | panic s2 =>
      rw [hk] at e1
      cases e1
    | nofuel =>
      rw [hk] at e1
      cases e1
  | freerange a b =>
    rw [step_freerange_eq] at h
    obtain ⟨e1, e2⟩ := record_ok σ σ1 _ _ h
    have hm := init_meta cfg hend σ.st σ1.st σ.log a b hI hM hA.1 hA.2 e1
    have hσ : σ1 = ⟨σ1.st, Event.init a b :: σ.log⟩ := by
      cases σ1
      simp only at e2
      rw [e2]
    rw [hσ]
    exact hm
  | kfree v => exact kfree_meta cfg hend σ σ1 v hI hM hA h
  | kalloc => exact kalloc_meta cfg σ σ1 hI hM h

theorem run_inv_meta (cfg : Layout) (hend : 0 < cfg.end_) (mem : Nat → Nat)
    (cs : List Call) (hR : Respects cfg (Sys.initial mem) cs) :
    ∃ σ, run cfg (Sys.initial mem) cs = Result.ok σ ∧ Inv cfg σ ∧ Meta cfg σ := by
  obtain ⟨σ, h1, h2⟩ := run_inv cfg hend cs (Sys.initial mem) (Inv_initial cfg mem) hR
  have h3 := run_respects_induction cfg (fun σ => Inv cfg σ ∧ Meta cfg σ)
    (fun σ c σ1 hP hA hs => by
      obtain ⟨σ2, e1, e2⟩ := step_inv cfg hend σ c hP.1 hA
      rw [hs] at e1
      cases e1
      exact ⟨e2, Meta_step cfg hend σ σ1 c hP.1 hP.2 hA hs⟩)
    cs _ σ ⟨Inv_initial cfg mem, Meta_initial cfg mem⟩ hR h1
  exact ⟨σ, h1, h3.1, h3.2⟩

/-- C11 (amended): after every prefix of every call sequence from boot that
obeys the interface rules, `is_allocated` is 0 or 1 in every entry of
`core_map`, and it is 1 exactly in the entries of the live pages (returned
by `kalloc` and not released since); so a frame with `is_allocated = 1` is
not the frame of any page on the free list. -/
theorem is_allocated_iff_live (cfg : Layout) (mem : Nat → Nat) (cs : List Call)
    (hend : 0 < cfg.end_) (hR : Respects cfg (Sys.initial mem) cs) (n : Nat) :
    ∃ σ l, run cfg (Sys.initial mem) (cs.take n) = Result.ok σ ∧
      isFreeList σ.st.mem σ.st.kmem.freelist l ∧
      (∀ i, (σ.st.core_map i).is_allocated = 0 ∨ (σ.st.core_map i).is_allocated = 1) ∧
      (∀ i, (σ.st.core_map i).is_allocated = 1 ↔
        ∃ p ∈ live σ.log, V2P cfg p >>> PGSHIFT = i) ∧
      (∀ i, (σ.st.core_map i).is_allocated = 1 →
        ∀ p ∈ l, V2P cfg p >>> PGSHIFT ≠ i) := by
  obtain ⟨σ, h1, hI, m1, m2, m3⟩ :=
    run_inv_meta cfg hend mem (cs.take n) (Respects_take cfg cs n _ hR)
  obtain ⟨l, hl, _⟩ := hI
  refine ⟨σ, l, h1, hl, m3, m2, ?_⟩
  intro i hi p hp e
  have hz := m1 l hl p hp
  rw [e] at hz
  rw [hz] at hi
  exact absurd hi (by decide)

/-- Witness for `is_allocated_iff_live`: boot of stock xv6 with four pages,
two allocations and one release. -/
theorem is_allocated_iff_live_witness :
    ∃ σ l, run xv6 (Sys.initial fun _ => 0)
        ([Call.kinit1 0x80400000 0x80404000, Call.kalloc, Call.kalloc,
          Call.kfree 0x80403000].take 4) = Result.ok σ ∧
      isFreeList σ.st.mem σ.st.kmem.freelist l ∧
      (∀ i, (σ.st.core_map i).is_allocated = 0 ∨ (σ.st.core_map i).is_allocated = 1) ∧
      (∀ i, (σ.st.core_map i).is_allocated = 1 ↔
        ∃ p ∈ live σ.log, V2P xv6 p >>> PGSHIFT = i) ∧
      (∀ i, (σ.st.core_map i).is_allocated = 1 →
        ∀ p ∈ l, V2P xv6 p >>> PGSHIFT ≠ i) :=
  is_allocated_iff_live xv6 (fun _ => 0) _ (by decide) (by decide) 4

/-- C11 (counterexample): in stock xv6 after `kinit1` over the four pages
from `0x80400000` (a sequence that obeys the rules), the page `0x80800000`
passes the check of `kfree` and its frame 2048 lies in the managed range;
the free list is exactly the four registered pages, so frame 2048 is not on
it, and yet its `is_allocated` is 0. -/
theorem unregistered_frame_not_allocated :
    ∃ σ, Respects xv6 (Sys.initial fun _ => 0) [Call.kinit1 0x80400000 0x80404000] ∧
      run xv6 (Sys.initial fun _ => 0) [Call.kinit1 0x80400000 0x80404000]
        = Result.ok σ ∧
      ¬ kfree_guard xv6 0x80800000 ∧
      V2P xv6 0x80800000 >>> PGSHIFT = 2048 ∧ 2048 < xv6.PHYSTOP >>> PGSHIFT ∧
      isFreeList σ.st.mem σ.st.kmem.freelist
        [0x80403000, 0x80402000, 0x80401000, 0x80400000] ∧
      (∀ p ∈ [0x80403000, 0x80402000, 0x80401000, 0x80400000],
        V2P xv6 p >>> PGSHIFT ≠ 2048) ∧
      (σ.st.core_map 2048).is_allocated = 0 := by
  refine ⟨_, by decide, rfl, by decide, by decide, by decide, ?_, by decide, rfl⟩
  simp only [isFreeList, isFreeSeg]
  decide

/-- C12: after every prefix of every call sequence from boot that obeys the
interface rules, the free list is a null-terminated chain of pages, and the
`core_map` entry of every page on it has `is_allocated = 0` and
`birth_time = 0`. -/
theorem free_pages_not_allocated (cfg : Layout) (mem : Nat → Nat) (cs : List Call)
    (hend : 0 < cfg.end_) (hR : Respects cfg (Sys.initial mem) cs) (n : Nat) :
    ∃ σ l, run cfg (Sys.initial mem) (cs.take n) = Result.ok σ ∧
      isFreeList σ.st.mem σ.st.kmem.freelist l ∧
      ∀ p ∈ l, (σ.st.core_map (V2P cfg p >>> PGSHIFT)).is_allocated = 0 ∧
        (σ.st.core_map (V2P cfg p >>> PGSHIFT)).birth_time = 0 := by
  obtain ⟨σ, h1, hI, m1, _, _⟩ :=
    run_inv_meta cfg hend mem (cs.take n) (Respects_take cfg cs n _ hR)
  obtain ⟨l, hl, _⟩ := hI
  refine ⟨σ, l, h1, hl, ?_⟩
  intro p hp
  rw [m1 l hl p hp]
  exact ⟨rfl, rfl⟩

/-- Witness for `free_pages_not_allocated`: boot of stock xv6 with four
pages, allocations and a release. -/
theorem free_pages_not_allocated_witness :
    ∃ σ l, run xv6 (Sys.initial fun _ => 0)
        ([Call.kinit1 0x80400000 0x80404000, Call.kalloc, Call.kalloc,
          Call.kfree 0x80403000, Call.kalloc].take 5) = Result.ok σ ∧
      isFreeList σ.st.mem σ.st.kmem.freelist l ∧
      ∀ p ∈ l, (σ.st.core_map (V2P xv6 p >>> PGSHIFT)).is_allocated = 0 ∧
        (σ.st.core_map (V2P xv6 p >>> PGSHIFT)).birth_time = 0 :=
  free_pages_not_allocated xv6 (fun _ => 0) _ (by decide) (by decide) 5

/-! ## Arbitrary call sequences -/

theorem freerange_loop_calls (cfg : Layout) (vend fuel : Nat) :
    ∀ (p : Nat) (s : State), freerange_loop cfg vend fuel p s ≠ Result.nofuel →
      freerange_loop cfg vend fuel p s =
        kfree_each cfg (freerange_calls cfg vend fuel p) s := by
  induction fuel with
  | zero =>
    intro p s h
    exact absurd rfl h
  | succ f ih =>
    intro p s h
    rw [freerange_loop] at h ⊢
    rw [freerange_calls]
    by_cases ht : (p + PGSIZE) % WORD ≤ vend
    · rw [if_pos ht] at h ⊢
      rw [if_pos ht]
      by_cases hg : kfree_guard cfg p
      · rw [if_pos hg]
        have hp : kfree cfg p s = Result.panic s := by simp only [kfree, if_pos hg]
        simp only [hp, kfree_each]
      · rw [if_neg hg]
        obtain ⟨s1, h1, _⟩ := kfree_ok cfg p s hg
        simp only [h1, kfree_each] at h ⊢
        exact ih _ s1 h
    · rw [if_neg ht, if_neg ht]
      rfl

theorem freerange_ok_calls (cfg : Layout) (a b : Nat) (s s1 : State)
    (h : freerange cfg a b s = Result.ok s1) :
    kfree_each cfg (kfreed_by_init cfg a b) s = Result.ok s1 := by
  unfold freerange at h
  unfold kfreed_by_init
  rw [← freerange_loop_calls cfg b FUEL _ s (by rw [h]; exact fun e => by cases e)]
  exact h

theorem freerange_clears (cfg : Layout) (a b : Nat) (s s1 : State)
    (h : freerange cfg a b s = Result.ok s1) (i : Nat)
    (hi : (s1.core_map i).is_allocated = 1) :
    (s.core_map i).is_allocated = 1 ∧
      ∀ p ∈ kfreed_by_init cfg a b, V2P cfg p >>> PGSHIFT ≠ i := by
  obtain ⟨_, _, _, f4, f5⟩ :=
    kfree_each_frame cfg (kfreed_by_init cfg a b) s s1 (freerange_ok_calls cfg a b s s1 h)
  have hno : ∀ p ∈ kfreed_by_init cfg a b, V2P cfg p >>> PGSHIFT ≠ i := by
    intro p hp e
    rw [← e, f4 p hp] at hi
    exact absurd hi (by decide)
  rw [f5 i hno] at hi
  exact ⟨hi, hno⟩

theorem outstanding_init (cfg : Layout) (s s1 : State) (log : List Event) (a b : Nat)
    (hP : ∀ i, (s.core_map i).is_allocated = 1 →
      ∃ r ∈ outstanding cfg log, V2P cfg r >>> PGSHIFT = i)
    (h : freerange cfg a b s = Result.ok s1) :
    ∀ i, (s1.core_map i).is_allocated = 1 →
      ∃ r ∈ outstanding cfg (Event.init a b :: log), V2P cfg r >>> PGSHIFT = i := by
  intro i hi
  obtain ⟨h1, h2⟩ := freerange_clears cfg a b s s1 h i hi
  obtain ⟨r, hr, e⟩ := hP i h1
  refine ⟨r, ?_, e⟩
  simp only [outstanding, List.mem_filter, decide_eq_true_eq]
  exact ⟨hr, fun hm => h2 r hm e⟩

theorem outstanding_step (cfg : Layout) (σ σ1 : Sys) (c : Call)
    (hP : ∀ i, (σ.st.core_map i).is_allocated = 1 →
      ∃ r ∈ outstanding cfg σ.log, V2P cfg r >>> PGSHIFT = i)
    (h : step cfg σ c = Result.ok σ1) :
    ∀ i, (σ1.st.core_map i).is_allocated = 1 →
      ∃ r ∈ outstanding cfg σ1.log, V2P cfg r >>> PGSHIFT = i := by
  cases c with
  | kinit1 a b =>
    rw [step_kinit1_eq] at h
    obtain ⟨e1, e2⟩ := record_ok σ σ1 _ _ h
    unfold kinit1 at e1
    rw [e2]
    have hP0 : ∀ i,
        (({ σ.st with kmem := { σ.st.kmem with use_lock := 0 } } : State).core_map
          i).is_allocated = 1 →
        ∃ r ∈ outstanding cfg σ.log, V2P cfg r >>> PGSHIFT = i := hP
    exact outstanding_init cfg { σ.st with kmem := { σ.st.kmem with use_lock := 0 } }
      σ1.st σ.log a b hP0 e1
  | kinit2 a b =>
    rw [step_kinit2_eq] at h
    obtain ⟨e1, e2⟩ := record_ok σ σ1 _ _ h
    unfold kinit2 at e1
    rw [e2]
    cases hk : freerange cfg a b σ.st with
    | ok s2 =>
      rw [hk] at e1
      injection e1 with e3
      have := outstanding_init cfg σ.st s2 σ.log a b hP hk
      intro i hi
      exact this i (by rw [← e3] at hi; exact hi)
    | panic s2 =>
      rw [hk] at e1
      cases e1
    | nofuel =>
      rw [hk] at e1
      cases e1
  | freerange a b =>
    rw [step_freerange_eq] at h
    obtain ⟨e1, e2⟩ := record_ok σ σ1 _ _ h
    rw [e2]
    exact outstanding_init cfg σ.st σ1.st σ.log a b hP e1
  | kfree v =>
    rw [step_kfree_eq] at h
    obtain ⟨e1, e2⟩ := record_ok σ σ1 _ _ h
    rw [e2]
    by_cases hg : kfree_guard cfg v
    · simp [kfree, hg] at e1
    · obtain ⟨s2, f1, _, _, _, _, fc⟩ := kfree_ok cfg v σ.st hg
      rw [f1] at e1
      injection e1 with e3
      subst e3
      intro i hi
      rw [fc] at hi
      simp only [setEntry] at hi
      by_cases hidx : i = V2P cfg v >>> PGSHIFT
      · rw [if_pos hidx] at hi
        exact absurd hi (by decide)
      · rw [if_neg hidx] at hi
        obtain ⟨r, hr, e⟩ := hP i hi
        refine ⟨r, ?_, e⟩
        simp only [outstanding, List.mem_filter, decide_eq_true_eq]
        exact ⟨hr, fun e1 => hidx (by rw [← e, e1])⟩
  | kalloc =>
    by_cases h0 : σ.st.kmem.freelist = 0
    · rw [step_kalloc_empty cfg σ h0] at h
      cases h
      exact hP
    · rw [step_kalloc_ok cfg σ h0] at h
      cases h
      obtain ⟨_, _, _, _, _, k6⟩ := kalloc_ok cfg σ.st h0
      intro i hi
      have hi1 : ((kalloc cfg σ.st).2.core_map i).is_allocated = 1 := hi
      rw [k6] at hi1
      simp only [setEntry] at hi1
      show ∃ r ∈ outstanding cfg
        (Event.alloc σ.st.kmem.freelist σ.st.fifo_clock :: σ.log), _
      simp only [outstanding, List.mem_cons]
      by_cases hidx : i = V2P cfg σ.st.kmem.freelist >>> PGSHIFT
      · exact ⟨_, Or.inl rfl, hidx.symm⟩
      · rw [if_neg hidx] at hi1
        obtain ⟨r, hr, e⟩ := hP i hi1
        exact ⟨r, Or.inr hr, e⟩

theorem outstanding_returned (cfg : Layout) (log : List Event) :
    ∀ r ∈ outstanding cfg log, r ∈ returned log := by
  induction log with
  | nil => intro r h; cases h
  | cons e es ih =>
    intro r h
    cases e with
    | init a b =>
      simp only [outstanding, List.mem_filter] at h
      exact ih r h.1
    | free v =>
      simp only [outstanding, List.mem_filter] at h
      exact ih r h.1
    | alloc q bt =>
      simp only [outstanding, List.mem_cons] at h
      simp only [returned, List.mem_cons]
      exact h.imp id (ih r)
    | nomem => exact ih r h

/-- C13: after every sequence of `kinit1`/`kinit2`/`freerange`/`kalloc`/
`kfree` calls from boot (whether or not it obeys the interface rules), every
frame `idx` with `is_allocated = 1` is the frame of an address that an
earlier `kalloc` returned and that has not been passed to `kfree` since,
neither by a caller nor inside an initialiser. -/
theorem allocated_frames_outstanding (cfg : Layout) (mem : Nat → Nat) (cs : List Call)
    (σ : Sys) (idx : Nat) (h : run cfg (Sys.initial mem) cs = Result.ok σ)
    (hi : (σ.st.core_map idx).is_allocated = 1) :
    ∃ r, r ∈ outstanding cfg σ.log ∧ r ∈ returned σ.log ∧
      V2P cfg r >>> PGSHIFT = idx := by
  have h0 : ∀ i, ((Sys.initial mem).st.core_map i).is_allocated = 1 →
      ∃ r ∈ outstanding cfg (Sys.initial mem).log, V2P cfg r >>> PGSHIFT = i := by
    intro i hi0
    simp [Sys.initial, State.initial] at hi0
  obtain ⟨r, hr, e⟩ := run_induction cfg
    (fun σ => ∀ i, (σ.st.core_map i).is_allocated = 1 →
      ∃ r ∈ outstanding cfg σ.log, V2P cfg r >>> PGSHIFT = i)
    (fun σ c σ1 hP hs => outstanding_step cfg σ σ1 c hP hs) cs _ σ h0 h idx hi
  exact ⟨r, hr, outstanding_returned cfg σ.log r hr, e⟩

/-- Witness for `allocated_frames_outstanding`: a sequence of stock xv6 that
breaks the rules (the page `0x80403000` is released twice and then handed
out twice); frame 1027 is the frame of that page. -/
theorem allocated_frames_outstanding_witness :
    ∃ σ, run xv6 (Sys.initial fun _ => 0)
        [Call.kinit1 0x80400000 0x80404000, Call.kalloc, Call.kfree 0x80403000,
          Call.kfree 0x80403000, Call.kalloc, Call.kalloc] = Result.ok σ ∧
      (σ.st.core_map 1027).is_allocated = 1 ∧
      ∃ r, r ∈ outstanding xv6 σ.log ∧ r ∈ returned σ.log ∧
        V2P xv6 r >>> PGSHIFT = 1027 :=
  ⟨_, rfl, rfl,
    allocated_frames_outstanding xv6 (fun _ => 0)
      [Call.kinit1 0x80400000 0x80404000, Call.kalloc, Call.kfree 0x80403000,
        Call.kfree 0x80403000, Call.kalloc, Call.kalloc] _ 1027 rfl rfl⟩

/-! ## Pointers followed by the allocator -/

theorem Hygiene_initial (cfg : Layout) (mem : Nat → Nat) :
    Hygiene cfg (State.initial mem) :=
  ⟨fun _ => False, fun _ h => h.elim, Or.inl rfl, fun _ h => h.elim⟩

theorem Hygiene_kfree (cfg : Layout) (v : Nat) (s s1 : State) (hv : v < WORD)
    (hH : Hygiene cfg s) (h : kfree cfg v s = Result.ok s1) : Hygiene cfg s1 := by
  by_cases hg : kfree_guard cfg v
  · simp [kfree, hg] at h
  · obtain ⟨s2, f1, f2, _, _, fm, _⟩ := kfree_ok cfg v s hg
    rw [f1] at h
    injection h with e
    subst e
    obtain ⟨S, a1, a2, a3⟩ := hH
    have hva := (guard_aligned cfg v hg).1
    have hhead : s.kmem.freelist < WORD := by
      rcases a2 with e | e
      · rw [e]; decide
      · exact (a1 _ e).2.1
    have hlv : loadWord s2.mem v = s.kmem.freelist := by
      rw [fm, loadWord_storeWord, Nat.mod_eq_of_lt hhead]
    refine ⟨fun p => p = v ∨ S p, ?_, Or.inr (Or.inl f2), ?_⟩
    · rintro p (e | hp)
      · rw [e]; exact ⟨hva, hv, hg⟩
      · exact a1 p hp
    · intro p hp
      by_cases e : p = v
      · rw [e, hlv]
        exact a2.imp id Or.inr
      · have hpS : S p := hp.resolve_left e
        rw [fm, loadWord_kfree_other s.mem p v _ (a1 p hpS).1 hva e]
        exact (a3 p hpS).imp id Or.inr

theorem Hygiene_kfree_each (cfg : Layout) (ps : List Nat) :
    ∀ (s s1 : State), (∀ p ∈ ps, p < WORD) → Hygiene cfg s →
      kfree_each cfg ps s = Result.ok s1 → Hygiene cfg s1 := by
  induction ps with
  | nil =>
    intro s s1 _ hH h
    simp only [kfree_each] at h
    cases h
    exact hH
  | cons p ps ih =>
    intro s s1 hlt hH h
    cases hk : kfree cfg p s with
    | ok s2 =>
      simp only [kfree_each, hk] at h
      exact ih s2 s1 (fun q hq => hlt q (List.mem_cons_of_mem _ hq))
        (Hygiene_kfree cfg p s s2 (hlt p (List.mem_cons_self _ _)) hH hk) h
    | panic s2 => simp [kfree_each, hk] at h
    | nofuel => simp [kfree_each, hk] at h

theorem Hygiene_congr (cfg : Layout) (s s1 : State) (hm : s1.mem = s.mem)
    (hf : s1.kmem.freelist = s.kmem.freelist) (h : Hygiene cfg s) : Hygiene cfg s1 := by
  obtain ⟨S, a1, a2, a3⟩ := h
  exact ⟨S, a1, by rw [hf]; exact a2, by rw [hm]; exact a3⟩

theorem PGROUNDUP_lt (a : Nat) : PGROUNDUP a < WORD ∧ PGROUNDUP a % PGSIZE = 0 := by
  rw [PGROUNDUP_eq]
  simp only [WORD, PGSIZE]
  omega

theorem freerange_calls_lt (cfg : Layout) (vend fuel : Nat) :
    ∀ p, p < WORD → p % PGSIZE = 0 →
      ∀ q ∈ freerange_calls cfg vend fuel p, q < WORD ∧ q % PGSIZE = 0 := by
  induction fuel with
  | zero =>
    intro p _ _ q hq
    simp [freerange_calls] at hq
  | succ f ih =>
    intro p hp ha q hq
    rw [freerange_calls] at hq
    split at hq
    · split at hq
      · rw [List.mem_singleton.1 hq]
        exact ⟨hp, ha⟩
      · rcases List.mem_cons.1 hq with e | hq
        · rw [e]
          exact ⟨hp, ha⟩
        · exact ih _ (Nat.mod_lt _ (by decide))
            (by simp only [PGSIZE, WORD] at *; omega) q hq
    · cases hq

theorem Hygiene_freerange (cfg : Layout) (a b : Nat) (s s1 : State)
    (hH : Hygiene cfg s) (h : freerange cfg a b s = Result.ok s1) : Hygiene cfg s1 :=
  Hygiene_kfree_each cfg (kfreed_by_init cfg a b) s s1
    (fun p hp => (freerange_calls_lt cfg b FUEL _ (PGROUNDUP_lt a).1 (PGROUNDUP_lt a).2
      p hp).1)
    hH (freerange_ok_calls cfg a b s s1 h)

theorem Hygiene_step (cfg : Layout) (σ σ1 : Sys) (c : Call) (ht : Call.typed c)
    (hH : Hygiene cfg σ.st) (h : step cfg σ c = Result.ok σ1) : Hygiene cfg σ1.st := by
  cases c with
  | kinit1 a b =>
    rw [step_kinit1_eq] at h
    obtain ⟨e1, _⟩ := record_ok σ σ1 _ _ h
    unfold kinit1 at e1
    have hH0 : Hygiene cfg { σ.st with kmem := { σ.st.kmem with use_lock := 0 } } :=
      Hygiene_congr cfg σ.st _ rfl rfl hH
    exact Hygiene_freerange cfg a b _ σ1.st hH0 e1
  | kinit2 a b =>
    rw [step_kinit2_eq] at h
    obtain ⟨e1, _⟩ := record_ok σ σ1 _ _ h
    unfold kinit2 at e1
    cases hk : freerange cfg a b σ.st with
    | ok s2 =>
      rw [hk] at e1
      injection e1 with e3
      exact Hygiene_congr cfg s2 σ1.st (by rw [← e3]) (by rw [← e3])
        (Hygiene_freerange cfg a b σ.st s2 hH hk)
    | panic s2 =>
      rw [hk] at e1
      cases e1
    | nofuel =>
      rw [hk] at e1
      cases e1
  | freerange a b =>
    rw [step_freerange_eq] at h
    obtain ⟨e1, _⟩ := record_ok σ σ1 _ _ h
    exact Hygiene_freerange cfg a b σ.st σ1.st hH e1
  | kfree v =>
    rw [step_kfree_eq] at h
    obtain ⟨e1, _⟩ := record_ok σ σ1 _ _ h
    exact Hygiene_kfree cfg v σ.st σ1.st ht hH e1
  | kalloc =>
    by_cases h0 : σ.st.kmem.freelist = 0
    · rw [step_kalloc_empty cfg σ h0] at h
      cases h
      exact hH
    · rw [step_kalloc_ok cfg σ h0] at h
      cases h
      obtain ⟨_, k2, _, _, k5, _⟩ := kalloc_ok cfg σ.st h0
      obtain ⟨S, a1, a2, a3⟩ := hH
      have hS : S σ.st.kmem.freelist := a2.resolve_left h0
      refine ⟨S, a1, ?_, ?_⟩
      · show (kalloc cfg σ.st).2.kmem.freelist = 0 ∨ S (kalloc cfg σ.st).2.kmem.freelist
        rw [k2]
        exact a3 _ hS
      · show ∀ p, S p → loadWord (kalloc cfg σ.st).2.mem p = 0 ∨
          S (loadWord (kalloc cfg σ.st).2.mem p)
        rw [k5]
        exact a3

theorem run_hygiene (cfg : Layout) (cs : List Call) :
    ∀ σ σ1, (∀ c ∈ cs, Call.typed c) → Hygiene cfg σ.st →
      run cfg σ cs = Result.ok σ1 → Hygiene cfg σ1.st := by
  induction cs with
  | nil =>
    intro σ σ1 _ hH h
    simp only [run] at h
    cases h
    exact hH
  | cons c cs ih =>
    intro σ σ1 ht hH h
    cases hs : step cfg σ c with
    | ok σ2 =>
      rw [run_cons_ok cfg σ σ2 c cs hs] at h
      exact ih σ2 σ1 (fun c1 hc1 => ht c1 (List.mem_cons_of_mem _ hc1))
        (Hygiene_step cfg σ σ2 c (ht c (List.mem_cons_self _ _)) hH hs) h
    | panic s1 => simp [run, hs] at h
    | nofuel => simp [run, hs] at h

theorem frame_lt (cfg : Layout) (hP : cfg.PHYSTOP % PGSIZE = 0) (v : Nat)
    (hg : ¬ kfree_guard cfg v) :
    V2P cfg v >>> PGSHIFT < cfg.PHYSTOP >>> PGSHIFT := by
  have h := (guard_aligned cfg v hg).2.2
  simp only [PGSHIFT, Nat.shiftRight_eq_div_pow, PGSIZE] at *
  omega

/-- C17: with `PHYSTOP` a whole number of pages, every index
`V2P(v) >> PGSHIFT` computed by a `kfree` that does not panic is below
`PHYSTOP >> PGSHIFT`, the length of `core_map`; and in every state reached
from boot by a sequence of `kinit1`/`kinit2`/`freerange`/`kfree`/`kalloc`
calls with 32-bit arguments, the page that `kalloc` pops passed the check of
`kfree`, so the index computed for it is below the length of `core_map`
too. -/
theorem core_map_index_in_bounds (cfg : Layout) (mem : Nat → Nat) (cs : List Call)
    (σ : Sys) (hP : cfg.PHYSTOP % PGSIZE = 0) (ht : ∀ c ∈ cs, Call.typed c)
    (h : run cfg (Sys.initial mem) cs = Result.ok σ) :
    (∀ v, ¬ kfree_guard cfg v → V2P cfg v >>> PGSHIFT < cfg.PHYSTOP >>> PGSHIFT) ∧
    ((kalloc cfg σ.st).1 ≠ 0 →
      ¬ kfree_guard cfg (kalloc cfg σ.st).1 ∧
      V2P cfg (kalloc cfg σ.st).1 >>> PGSHIFT < cfg.PHYSTOP >>> PGSHIFT) := by
  refine ⟨frame_lt cfg hP, ?_⟩
  intro hne
  obtain ⟨S, a1, a2, _⟩ := run_hygiene cfg cs _ σ ht (Hygiene_initial cfg mem) h
  have h0 : σ.st.kmem.freelist ≠ 0 := by
    intro e
    rw [kalloc_empty cfg σ.st e] at hne
    exact hne rfl
  rw [(kalloc_ok cfg σ.st h0).1]
  have hg := (a1 _ (a2.resolve_left h0)).2.2
  exact ⟨hg, frame_lt cfg hP _ hg⟩

/-- Witness for `core_map_index_in_bounds`: stock xv6, a sequence that
releases a page twice before allocating. -/
theorem core_map_index_in_bounds_witness :
    ∃ σ, run xv6 (Sys.initial fun _ => 0)
        [Call.kinit1 0x80400000 0x80404000, Call.kalloc, Call.kfree 0x80403000,
          Call.kfree 0x80403000, Call.kalloc] = Result.ok σ ∧
      (∀ v, ¬ kfree_guard xv6 v → V2P xv6 v >>> PGSHIFT < xv6.PHYSTOP >>> PGSHIFT) ∧
      ((kalloc xv6 σ.st).1 ≠ 0 →
        ¬ kfree_guard xv6 (kalloc xv6 σ.st).1 ∧
        V2P xv6 (kalloc xv6 σ.st).1 >>> PGSHIFT < xv6.PHYSTOP >>> PGSHIFT) :=
  ⟨_, rfl,
    core_map_index_in_bounds xv6 (fun _ => 0)
      [Call.kinit1 0x80400000 0x80404000, Call.kalloc, Call.kfree 0x80403000,
        Call.kfree 0x80403000, Call.kalloc] _ (by decide) (by decide) rfl⟩

/-! ## Termination of `freerange` -/

theorem guard_zero (cfg : Layout) (hend : 0 < cfg.end_) : kfree_guard cfg 0 :=
  Or.inr (Or.inl hend)

theorem freerange_loop_total (cfg : Layout) (hend : 0 < cfg.end_) (vend n : Nat) :
    ∀ (fuel p : Nat) (s : State), p < WORD → (p + PGSIZE * n) % WORD = 0 → n < fuel →
      freerange_loop cfg vend fuel p s ≠ Result.nofuel := by
  induction n with
  | zero =>
    intro fuel p s hp h0 hf
    obtain ⟨f, rfl⟩ : ∃ f, fuel = f + 1 := ⟨fuel - 1, by omega⟩
    have hp0 : p = 0 := by
      simp only [WORD, PGSIZE] at *
      omega
    subst hp0
    rw [freerange_loop]
    split
    · have hk : kfree cfg 0 s = Result.panic s := by
        simp only [kfree, if_pos (guard_zero cfg hend)]
      rw [hk]
      exact fun e => by cases e
    · exact fun e => by cases e
  | succ n ih =>
    intro fuel p s hp h0 hf
    obtain ⟨f, rfl⟩ : ∃ f, fuel = f + 1 := ⟨fuel - 1, by omega⟩
    rw [freerange_loop]
    split
    · cases hk : kfree cfg p s with
      | ok s1 =>
        exact ih f _ s1 (Nat.mod_lt _ (by decide))
          (by simp only [WORD, PGSIZE] at *; omega) (by omega)
      | panic s1 => exact fun e => by cases e
      | nofuel =>
        by_cases hg : kfree_guard cfg p
        · simp [kfree, hg] at hk
        · obtain ⟨s2, h2, _⟩ := kfree_ok cfg p s hg
          rw [h2] at hk
          cases hk
    · exact fun e => by cases e

theorem freerange_calls_offsets (cfg : Layout) (hend : 0 < cfg.end_) (vend n : Nat) :
    ∀ (fuel p : Nat), p < WORD → (p + PGSIZE * n) % WORD = 0 →
      ∀ q ∈ freerange_calls cfg vend fuel p, ∃ j, j ≤ n ∧ q = (p + PGSIZE * j) % WORD := by
  induction n with
  | zero =>
    intro fuel p hp h0 q hq
    have hp0 : p = 0 := by
      simp only [WORD, PGSIZE] at *
      omega
    subst hp0
    cases fuel with
    | zero => simp [freerange_calls] at hq
    | succ f =>
      rw [freerange_calls] at hq
      split at hq
      · rw [if_pos (guard_zero cfg hend)] at hq
        exact ⟨0, le_refl _, by rw [List.mem_singleton.1 hq]; rfl⟩
      · cases hq
  | succ n ih =>
    intro fuel p hp h0 q hq
    cases fuel with
    | zero => simp [freerange_calls] at hq
    | succ f =>
      rw [freerange_calls] at hq
      split at hq
      · split at hq
        · exact ⟨0, by omega, by
            rw [List.mem_singleton.1 hq]
            simp only [WORD] at *
            omega⟩
        · rcases List.mem_cons.1 hq with e | hq
          · exact ⟨0, by omega, by
              rw [e]
              simp only [WORD] at *
              omega⟩
          · obtain ⟨j, hj, e⟩ := ih f _ (Nat.mod_lt _ (by decide))
              (by simp only [WORD, PGSIZE] at *; omega) q hq
            exact ⟨j + 1, by omega, by
              rw [e]
              simp only [WORD, PGSIZE] at *
              omega⟩
      · cases hq

theorem freerange_calls_nodup (cfg : Layout) (hend : 0 < cfg.end_) (vend n : Nat) :
    ∀ (fuel p : Nat), p < WORD → (p + PGSIZE * n) % WORD = 0 → n < 2 ^ 20 →
      (freerange_calls cfg vend fuel p).Nodup := by
  induction n with
  | zero =>
    intro fuel p hp h0 _
    have hp0 : p = 0 := by
      simp only [WORD, PGSIZE] at *
      omega
    subst hp0
    cases fuel with
    | zero => simp [freerange_calls]
    | succ f =>
      rw [freerange_calls]
      split
      · rw [if_pos (guard_zero cfg hend)]
        exact List.nodup_singleton _
      · exact List.nodup_nil
  | succ n ih =>
    intro fuel p hp h0 hn
    cases fuel with
    | zero => simp [freerange_calls]
    | succ f =>
      rw [freerange_calls]
      split
      · split
        · exact List.nodup_singleton _
        · have hp1 : (p + PGSIZE) % WORD < WORD := Nat.mod_lt _ (by decide)
          have h1 : ((p + PGSIZE) % WORD + PGSIZE * n) % WORD = 0 := by
            simp only [WORD, PGSIZE] at *
            omega
          rw [List.nodup_cons]
          refine ⟨?_, ih f _ hp1 h1 (by omega)⟩
          intro hmem
          obtain ⟨j, hj, e⟩ := freerange_calls_offsets cfg hend vend n f _ hp1 h1 p hmem
          simp only [WORD, PGSIZE] at *
          omega
      · exact List.nodup_nil

theorem length_le_of_nodup_lt (l : List Nat) (m : Nat) (hnd : l.Nodup)
    (hlt : ∀ x ∈ l, x < m) : l.length ≤ m := by
  have h1 : l.toFinset ⊆ Finset.range m := by
    intro x hx
    exact Finset.mem_range.2 (hlt x (List.mem_toFinset.1 hx))
  have h2 := Finset.card_le_card h1
  rw [List.toFinset_card_of_nodup hnd, Finset.card_range] at h2
  exact h2

theorem start_offset (p : Nat) (hp : p < WORD) (ha : p % PGSIZE = 0) :
    ∃ n, n < 2 ^ 20 ∧ (p + PGSIZE * n) % WORD = 0 := by
  by_cases h0 : p = 0
  · exact ⟨0, by decide, by rw [h0]; rfl⟩
  · refine ⟨(WORD - p) / PGSIZE, ?_, ?_⟩
    · simp only [WORD, PGSIZE] at *
      omega
    · simp only [WORD, PGSIZE] at *
      omega

theorem kfreed_by_init_bound (cfg : Layout) (hend : 0 < cfg.end_)
    (hP : cfg.PHYSTOP % PGSIZE = 0) (a b : Nat) :
    ((kfreed_by_init cfg a b).filter (fun p => decide (¬ kfree_guard cfg p))).length
      ≤ cfg.PHYSTOP / PGSIZE := by
  obtain ⟨hlt, hal⟩ := PGROUNDUP_lt a
  obtain ⟨n, hn, h0⟩ := start_offset (PGROUNDUP a) hlt hal
  have hnd : (kfreed_by_init cfg a b).Nodup :=
    freerange_calls_nodup cfg hend b n FUEL _ hlt h0 hn
  have hgood := freerange_calls_lt cfg b FUEL _ hlt hal
  have hnd2 := hnd.filter (fun p => decide (¬ kfree_guard cfg p))
  have hmap : (((kfreed_by_init cfg a b).filter
      (fun p => decide (¬ kfree_guard cfg p))).map
        (fun p => V2P cfg p >>> PGSHIFT)).Nodup := by
    apply List.Nodup.map_on _ hnd2
    intro x hx y hy e
    have hx1 := hgood x (List.mem_filter.1 hx).1
    have hy1 := hgood y (List.mem_filter.1 hy).1
    exact frame_injective cfg x y hx1.2 hy1.2 hx1.1 hy1.1 e
  have hlen := length_le_of_nodup_lt _ (cfg.PHYSTOP / PGSIZE) hmap (by
    intro i hi
    obtain ⟨p, hp, e⟩ := List.mem_map.1 hi
    have hg : ¬ kfree_guard cfg p := by
      simpa using (List.mem_filter.1 hp).2
    have := frame_lt cfg hP p hg
    rw [← e]
    simpa [PGSHIFT, PGSIZE, Nat.shiftRight_eq_div_pow] using this)
  rwa [List.length_map] at hlen

/-- C20: with `end` non-null and `PHYSTOP` a whole number of pages, for every
`vstart` and `vend` (also when `vend < PGROUNDUP(vstart)`, when
`PGROUNDUP` or `p + PGSIZE` wraps modulo `2^32`, and when the range holds
invalid pages) `freerange(vstart, vend)` ends, by returning or by a panic;
it is the run of `kfree` over the addresses `kfreed_by_init`, of which at
most `PHYSTOP / PGSIZE` pass the check of `kfree`; and when
`PGROUNDUP(vstart) + PGSIZE > vend` without wraparound it calls `kfree` on
no address and returns the state unchanged. -/
theorem freerange_terminates (cfg : Layout) (a b : Nat) (s : State)
    (hend : 0 < cfg.end_) (hP : cfg.PHYSTOP % PGSIZE = 0) :
    ((∃ s1, freerange cfg a b s = Result.ok s1) ∨
      (∃ s1, freerange cfg a b s = Result.panic s1)) ∧
    freerange cfg a b s = kfree_each cfg (kfreed_by_init cfg a b) s ∧
    ((kfreed_by_init cfg a b).filter (fun p => decide (¬ kfree_guard cfg p))).length
      ≤ cfg.PHYSTOP / PGSIZE ∧
    (b < PGROUNDUP a + PGSIZE → PGROUNDUP a + PGSIZE < WORD →
      kfreed_by_init cfg a b = [] ∧ freerange cfg a b s = Result.ok s) := by
  obtain ⟨hlt, hal⟩ := PGROUNDUP_lt a
  obtain ⟨n, hn, h0⟩ := start_offset (PGROUNDUP a) hlt hal
  have htot : freerange_loop cfg b FUEL (PGROUNDUP a) s ≠ Result.nofuel :=
    freerange_loop_total cfg hend b n FUEL _ s hlt h0
      (by simp only [FUEL] at *; omega)
  have heq : freerange cfg a b s = kfree_each cfg (kfreed_by_init cfg a b) s := by
    unfold freerange kfreed_by_init
    exact freerange_loop_calls cfg b FUEL _ s htot
  refine ⟨?_, heq, kfreed_by_init_bound cfg hend hP a b, ?_⟩
  · unfold freerange
    cases hr : freerange_loop cfg b FUEL (PGROUNDUP a) s with
    | ok s1 => exact Or.inl ⟨s1, rfl⟩
    | panic s1 => exact Or.inr ⟨s1, rfl⟩
    | nofuel => exact absurd hr htot
  · intro h1 h2
    have hm : (PGROUNDUP a + PGSIZE) % WORD = PGROUNDUP a + PGSIZE :=
      Nat.mod_eq_of_lt h2
    have hnot : ¬ (PGROUNDUP a + PGSIZE) % WORD ≤ b := by
      rw [hm]
      omega
    have hc : kfreed_by_init cfg a b = [] := by
      show freerange_calls cfg b (1048576 + 1) (PGROUNDUP a) = []
      rw [freerange_calls, if_neg hnot]
    refine ⟨hc, ?_⟩
    rw [heq, hc]
    rfl

/-- Witness for `freerange_terminates`: stock xv6 and a range at the top of
the address space, where `p + PGSIZE` wraps to 0. -/
theorem freerange_terminates_witness :
    ((∃ s1, freerange xv6 0xFFFFE001 0xFFFFE002 (State.initial fun _ => 0)
        = Result.ok s1) ∨
      (∃ s1, freerange xv6 0xFFFFE001 0xFFFFE002 (State.initial fun _ => 0)
        = Result.panic s1)) ∧
    freerange xv6 0xFFFFE001 0xFFFFE002 (State.initial fun _ => 0) =
      kfree_each xv6 (kfreed_by_init xv6 0xFFFFE001 0xFFFFE002)
        (State.initial fun _ => 0) ∧
    ((kfreed_by_init xv6 0xFFFFE001 0xFFFFE002).filter
      (fun p => decide (¬ kfree_guard xv6 p))).length ≤ xv6.PHYSTOP / PGSIZE ∧
    (0xFFFFE002 < PGROUNDUP 0xFFFFE001 + PGSIZE →
      PGROUNDUP 0xFFFFE001 + PGSIZE < WORD →
      kfreed_by_init xv6 0xFFFFE001 0xFFFFE002 = [] ∧
      freerange xv6 0xFFFFE001 0xFFFFE002 (State.initial fun _ => 0)
        = Result.ok (State.initial fun _ => 0)) :=
  freerange_terminates xv6 0xFFFFE001 0xFFFFE002 (State.initial fun _ => 0)
    (by decide) (by decide)

/-! ## Conservation of pages -/

theorem dedup_split (r f l : List Nat) (hl : l.Nodup)
    (h : ∀ x, x ∈ r ↔ x ∈ f ∨ x ∈ l) :
    r.dedup.length = f.dedup.length + (l.filter (fun p => decide (p ∉ f))).length := by
  have hnd : (f.dedup ++ l.filter (fun p => decide (p ∉ f))).Nodup := by
    rw [List.nodup_append]
    refine ⟨List.nodup_dedup f, hl.filter _, ?_⟩
    intro x hx hy
    have h1 : x ∈ f := List.mem_dedup.1 hx
    have h2 := (List.mem_filter.1 hy).2
    simp only [decide_eq_true_eq] at h2
    exact h2 h1
  have hperm : List.Perm r.dedup (f.dedup ++ l.filter (fun p => decide (p ∉ f))) := by
    apply (List.perm_ext_iff_of_nodup (List.nodup_dedup r) hnd).2
    intro x
    simp only [List.mem_dedup, List.mem_append, List.mem_filter, decide_eq_true_eq]
    rw [h x]
    by_cases hf : x ∈ f
    · exact ⟨fun _ => Or.inl hf, fun _ => Or.inl hf⟩
    · constructor
      · rintro (h1 | h1)
        · exact absurd h1 hf
        · exact Or.inr ⟨h1, hf⟩
      · rintro (h1 | h1)
        · exact absurd h1 hf
        · exact Or.inr h1.1
  rw [hperm.length_eq, List.length_append]

theorem filter_not_mem_eq (f l : List Nat) (h : ∀ p ∈ l, p ∉ f) :
    l.filter (fun p => decide (p ∉ f)) = l := by
  apply List.filter_eq_self.2
  intro p hp
  simp only [decide_eq_true_eq]
  exact h p hp

/-- C8 (amended): after every prefix of every call sequence from boot that
obeys the interface rules, the live pages are pairwise distinct, each has
`is_allocated = 1` in `core_map`, and the number of distinct addresses ever
returned by `kalloc` equals the number of distinct addresses ever passed to
`kfree` by callers plus the number of live pages that have never been
passed to `kfree` (a page released and allocated again is counted once,
among the released); so the equation of the claim holds whenever no live
page has been released before. Counted with multiplicity, the successful
`kalloc` calls are as many as the `kfree` calls of callers plus the live
pages, and an address was returned exactly when it was released or is
live. -/
theorem conservation (cfg : Layout) (mem : Nat → Nat) (cs : List Call)
    (hend : 0 < cfg.end_) (hR : Respects cfg (Sys.initial mem) cs) (n : Nat) :
    ∃ σ, run cfg (Sys.initial mem) (cs.take n) = Result.ok σ ∧
      (live σ.log).Nodup ∧
      (∀ p ∈ live σ.log, (σ.st.core_map (V2P cfg p >>> PGSHIFT)).is_allocated = 1) ∧
      (returned σ.log).dedup.length =
        (released σ.log).dedup.length +
          ((live σ.log).filter (fun p => decide (p ∉ released σ.log))).length ∧
      ((∀ p ∈ live σ.log, p ∉ released σ.log) →
        (returned σ.log).dedup.length =
          (released σ.log).dedup.length + (live σ.log).length) ∧
      (returned σ.log).length = (released σ.log).length + (live σ.log).length ∧
      (∀ x, x ∈ returned σ.log ↔ x ∈ released σ.log ∨ x ∈ live σ.log) ∧
      (returned σ.log).dedup.length = (released σ.log ++ live σ.log).dedup.length := by
  have hR1 := Respects_take cfg cs n _ hR
  obtain ⟨σ, h1, hI, _, m2, _⟩ := run_inv_meta cfg hend mem (cs.take n) hR1
  have h0 : Balanced (Sys.initial mem) := by
    simp [Balanced, Sys.initial, returned, released, live]
  obtain ⟨p1, p2⟩ := run_respects_induction cfg Balanced
    (fun σ c σ1 hP hA hs => Balanced_step cfg σ σ1 c hP hA hs) (cs.take n) _ σ h0 hR1 h1
  obtain ⟨l, _, hnd, _⟩ := hI
  have hlive : (live σ.log).Nodup := (List.nodup_append.1 hnd).2.1
  have hsplit := dedup_split (returned σ.log) (released σ.log) (live σ.log) hlive p2
  refine ⟨σ, h1, hlive, ?_, hsplit, ?_, p1, p2, dedup_length_eq _ _ (fun x => ?_)⟩
  · intro p hp
    exact (m2 _).2 ⟨p, hp, rfl⟩
  · intro hfresh
    rw [hsplit, filter_not_mem_eq _ _ hfresh]
  · rw [p2 x, List.mem_append]

/-- Witness for `conservation`: boot of stock xv6 with four pages, then
allocations and releases that reuse a page. -/
theorem conservation_witness :
    ∃ σ, run xv6 (Sys.initial fun _ => 0)
        ([Call.kinit1 0x80400000 0x80404000, Call.kalloc, Call.kalloc,
          Call.kfree 0x80403000, Call.kalloc, Call.kalloc].take 6) = Result.ok σ ∧
      (live σ.log).Nodup ∧
      (∀ p ∈ live σ.log, (σ.st.core_map (V2P xv6 p >>> PGSHIFT)).is_allocated = 1) ∧
      (returned σ.log).dedup.length =
        (released σ.log).dedup.length +
          ((live σ.log).filter (fun p => decide (p ∉ released σ.log))).length ∧
      ((∀ p ∈ live σ.log, p ∉ released σ.log) →
        (returned σ.log).dedup.length =
          (released σ.log).dedup.length + (live σ.log).length) ∧
      (returned σ.log).length = (released σ.log).length + (live σ.log).length ∧
      (∀ x, x ∈ returned σ.log ↔ x ∈ released σ.log ∨ x ∈ live σ.log) ∧
      (returned σ.log).dedup.length = (released σ.log ++ live σ.log).dedup.length :=
  conservation xv6 (fun _ => 0) _ (by decide) (by decide) 6

/-- C8 (counterexample): boot stock xv6 with the single page `0x80400000`,
then `kalloc`, `kfree` of that page, `kalloc`. The sequence obeys the rules;
one distinct address was returned, one distinct address was passed to
`kfree` (by the caller, and it is also the one address that `kinit1` passed
to `kfree`) and one page is live: 1 is not 1 + 1. Counting the calls of
`kfree` made by the initialisers does not help: after `kinit1` over four
pages alone, no address was returned, four were passed to `kfree` and none
is live. -/
theorem conservation_fails_on_reuse :
    (∃ σ, Respects xv6 (Sys.initial fun _ => 0)
        [Call.kinit1 0x80400000 0x80401000, Call.kalloc, Call.kfree 0x80400000,
          Call.kalloc] ∧
      run xv6 (Sys.initial fun _ => 0)
        [Call.kinit1 0x80400000 0x80401000, Call.kalloc, Call.kfree 0x80400000,
          Call.kalloc] = Result.ok σ ∧
      pagesOf 0x80400000 0x80401000 = [0x80400000] ∧
      kfreed_by_init xv6 0x80400000 0x80401000 = [0x80400000] ∧
      (returned σ.log).dedup = [0x80400000] ∧ (released σ.log).dedup = [0x80400000] ∧
      live σ.log = [0x80400000] ∧
      (returned σ.log).dedup.length ≠
        (released σ.log).dedup.length + (live σ.log).length) ∧
    (∃ σ, Respects xv6 (Sys.initial fun _ => 0) [Call.kinit1 0x80400000 0x80404000] ∧
      run xv6 (Sys.initial fun _ => 0) [Call.kinit1 0x80400000 0x80404000]
        = Result.ok σ ∧
      returned σ.log = [] ∧ live σ.log = [] ∧
      kfreed_by_init xv6 0x80400000 0x80404000 =
        [0x80400000, 0x80401000, 0x80402000, 0x80403000]) :=
  ⟨⟨_, by decide, rfl, by decide, by decide, by decide, by decide, by decide, by decide⟩,
   ⟨_, by decide, rfl, by decide, by decide, by decide⟩⟩

end Kalloc
